import Mathlib

/-!
Shallow embedding of the task-report-dashboard normalization and aggregation
pipeline (the main front-end variant of the repository).  Strings are modelled
as lists of characters; JavaScript `Map` objects are modelled as association
lists with insertion-order iteration; JavaScript numbers that matter here are
modelled as rationals (with the overflow-to-infinity threshold 2^1024 treated
as non-finite).  Locale-sensitive string comparison is modelled as code-point
lexicographic comparison, and `Array.prototype.sort` (a stable sort) is
modelled by insertion sort with the comparator's "not greater" relation.
-/

set_option maxRecDepth 16384

namespace TaskReport

/-- Strings as lists of characters. -/
abbrev Str := List Char

/-- Convert a Lean string literal to the character-list representation. -/
def str (s : String) : Str := s.data

/-- ASCII fragment of the JavaScript whitespace class used by trim/split. -/
def isJsWs (c : Char) : Bool :=
  c = ' ' ∨ c = '\t' ∨ c = '\n' ∨ c = '\r' ∨ c = '\x0b' ∨ c = '\x0c'

/-- JavaScript String.prototype.trim (ASCII whitespace fragment). -/
def jsTrim (s : Str) : Str :=
  ((s.dropWhile isJsWs).reverse.dropWhile isJsWs).reverse

/-- Numeric value of a run of decimal digits (most significant first). -/
def digitsToNat (ds : Str) : ℕ :=
  ds.foldl (fun n c => 10 * n + (c.toNat - '0'.toNat)) 0

/-- Decimal rendering of a natural number, as JavaScript String() produces. -/
def natToStr (n : ℕ) : Str := Nat.toDigits 10 n

/-- Decimal rendering of an integer, as JavaScript String() produces. -/
def intToStr (z : ℤ) : Str :=
  if z < 0 then '-' :: natToStr (Int.toNat (-z)) else natToStr (Int.toNat z)

/-- A scalar cell of a raw record: text, or a (finite, integral) number. -/
inductive CellValue
  | str (s : Str)
  | num (z : ℤ)
deriving DecidableEq, Repr

/-- JavaScript String(value ?? "") applied to a possibly-absent cell. -/
def jsStringOfCell : Option CellValue → Str
  | none => []
  | some (.str s) => s
  | some (.num z) => intToStr z

/-- JavaScript String(value || default): the default replaces a falsy cell
(absent, empty string, or the number 0). -/
def jsCellOrDefault (v : Option CellValue) (d : Str) : Str :=
  match v with
  | none => d
  | some (.str s) => if s = [] then d else s
  | some (.num z) => if z = 0 then d else intToStr z

/-- JavaScript a || b on strings (empty string is falsy). -/
def jsOr (a b : Str) : Str := if a = [] then b else a

/-- Association-list lookup, modelling JavaScript Map.get (first match). -/
def alGet {β : Type} (l : List (Str × β)) (k : Str) : Option β :=
  (l.find? (fun p => p.1 = k)).map Prod.snd

/-- Association-list update, modelling JavaScript Map.set: an existing key is
updated in place (keeping its position); a new key is appended. -/
def alSet {β : Type} : List (Str × β) → Str → β → List (Str × β)
  | [], k, v => [(k, v)]
  | (k', v') :: rest, k, v =>
      if k' = k then (k, v) :: rest else (k', v') :: alSet rest k v

/-- Split at every separator character, producing an empty token between two
consecutive separators and at separator boundaries. -/
def splitEach (p : Char → Bool) : Str → List Str
  | [] => [[]]
  | c :: rest =>
      if p c then [] :: splitEach p rest
      else
        match splitEach p rest with
        | t :: ts => (c :: t) :: ts
        | [] => [[c]]

/-- Collapse runs of adjacent empty tokens into one. -/
def collapseEmptyRuns : List Str → List Str
  | [] => []
  | [x] => [x]
  | x :: y :: rest =>
      if x = [] ∧ y = [] then collapseEmptyRuns (y :: rest)
      else x :: collapseEmptyRuns (y :: rest)

/-- Split on maximal runs of separator characters, as JavaScript
String.prototype.split with a one-or-more character-class regex: a run of
separators is one split point, and leading or trailing separators contribute
empty tokens at the ends. -/
def splitRuns (p : Char → Bool) (cs : Str) : List Str :=
  collapseEmptyRuns (splitEach p cs)

/-- Deduplicate keeping first occurrences, as Array.from(new Set(...)). -/
def dedupFirstGo (seen : List Str) : List Str → List Str
  | [] => []
  | x :: xs => if x ∈ seen then dedupFirstGo seen xs
               else x :: dedupFirstGo (x :: seen) xs

/-- Deduplicate a list of strings keeping first occurrences. -/
def dedupFirst (l : List Str) : List Str := dedupFirstGo [] l

/-- JavaScript Array.prototype.join with a string separator. -/
def joinWith (sep : Str) : List Str → Str
  | [] => []
  | [x] => x
  | x :: xs => x ++ sep ++ joinWith sep xs

/-- Normalized status enumeration of the dashboard. -/
inductive Status
  | open_
  | inprogress
  | done
  | other
deriving DecidableEq, Repr

instance : Fintype Status :=
  ⟨⟨{Status.open_, Status.inprogress, Status.done, Status.other}, by decide⟩,
   by intro x; cases x <;> decide⟩

instance : Fintype (Option Status) := instFintypeOption

/-- Source function statusIndex: advancement rank of a status. -/
def statusIndex : Status → ℕ
  | .open_ => 0
  | .inprogress => 1
  | .done => 2
  | .other => 3

/-- The literal JavaScript string value of a status (template interpolation). -/
def statusText : Status → Str
  | .open_ => str "open"
  | .inprogress => str "inprogress"
  | .done => str "done"
  | .other => str "other"

/-- Source function normalizeStatus: lowercase, strip whitespace, map
synonyms onto the four-value enumeration. -/
def normalizeStatus (v : Option CellValue) : Status :=
  let s := ((jsStringOfCell v).map Char.toLower).filter (fun c => ¬ isJsWs c)
  if s = str "open" ∨ s = str "todo" ∨ s = str "to-do" ∨ s = str "new" ∨ s = str "backlog" then
    .open_
  else if s = str "inprogress" ∨ s = str "in-progress" ∨ s = str "doing" ∨ s = str "progress" then
    .inprogress
  else if s = str "done" ∨ s = str "closed" then .done
  else .other

/-- Separator class of the labels cell: semicolon, comma, pipe, whitespace. -/
def isSepChar (c : Char) : Bool := c = ';' ∨ c = ',' ∨ c = '|' ∨ isJsWs c

/-- Bracket and quote characters are replaced by spaces before splitting. -/
def stripBracketQuote (c : Char) : Char :=
  if c = '[' ∨ c = ']' ∨ c = '"' then ' ' else c

/-- Week-code test: the anchored pattern W followed by one or two digits
(applied after uppercasing, so the W is literal). -/
def isWeekCode : Str → Bool
  | 'W' :: ds => (ds.length = 1 ∨ ds.length = 2) ∧ ds.all Char.isDigit
  | _ => false

/-- Source function parseWeekLabels: strip brackets and quotes, split on
separator runs, trim and uppercase each token, keep week codes, dedupe. -/
def parseWeekLabels (v : Option CellValue) : List Str :=
  let raw := (jsStringOfCell v).map stripBracketQuote
  dedupFirst
    (((splitRuns isSepChar raw).map (fun t => (jsTrim t).map Char.toUpper)).filter isWeekCode)

/-- Hexadecimal digit test. -/
def isHexDigit (c : Char) : Bool :=
  c.isDigit ∨ ('a' ≤ c ∧ c ≤ 'f') ∨ ('A' ≤ c ∧ c ≤ 'F')

/-- Value of a hexadecimal digit. -/
def hexDigitVal (c : Char) : ℕ :=
  if c.isDigit then c.toNat - '0'.toNat
  else if 'a' ≤ c ∧ c ≤ 'f' then c.toNat - 'a'.toNat + 10
  else c.toNat - 'A'.toNat + 10

/-- Numeric value of digits in a given base. -/
def digitsToNatBase (base : ℕ) (ds : Str) : ℕ :=
  ds.foldl (fun n c => base * n + hexDigitVal c) 0

/-- Exponent part of a JavaScript decimal literal (after the e/E). -/
def parseExponentInt (cs : Str) : Option ℤ :=
  match cs with
  | [] => none
  | '+' :: r => if r ≠ [] ∧ r.all Char.isDigit then some (digitsToNat r : ℤ) else none
  | '-' :: r => if r ≠ [] ∧ r.all Char.isDigit then some (-(digitsToNat r : ℤ)) else none
  | r => if r.all Char.isDigit then some (digitsToNat r : ℤ) else none

/-- Mantissa (as exact numerator and denominator) followed by an optional
exponent; the whole rest must parse. -/
def mantissaExpND (n : ℤ) (d : ℕ) (rest : Str) : Option (ℤ × ℕ) :=
  match rest with
  | [] => some (n, d)
  | c :: r =>
      if c = 'e' ∨ c = 'E' then
        (parseExponentInt r).map (fun e =>
          if 0 ≤ e then (n * (10 : ℤ) ^ e.toNat, d) else (n, d * 10 ^ (-e).toNat))
      else none

/-- Body of a JavaScript decimal literal: digits, optional fraction, optional
exponent; at least one digit overall.  The exact value is returned as a
numerator-denominator pair. -/
def parseDecimalBody (cs : Str) : Option (ℤ × ℕ) :=
  let ip := cs.takeWhile Char.isDigit
  match cs.drop ip.length with
  | '.' :: r =>
      let fp := r.takeWhile Char.isDigit
      if ip = [] ∧ fp = [] then none
      else mantissaExpND (digitsToNat (ip ++ fp) : ℤ) (10 ^ fp.length) (r.drop fp.length)
  | r2 =>
      if ip = [] then none else mantissaExpND (digitsToNat ip : ℤ) 1 r2

/-- Signed decimal literal or Infinity (the latter is non-finite, hence none). -/
def parseSignedDecimal (t : Str) : Option (ℤ × ℕ) :=
  match t with
  | '+' :: r => if r = str "Infinity" then none else parseDecimalBody r
  | '-' :: r =>
      if r = str "Infinity" then none
      else (parseDecimalBody r).map (fun p => (-p.1, p.2))
  | r => if r = str "Infinity" then none else parseDecimalBody r

/-- JavaScript Number() on a string, yielding a finite value or none for
NaN/Infinity.  Covers the decimal, hex, octal and binary literal grammars;
values whose magnitude reaches 2^1024 overflow to Infinity and are treated
non-finite. -/
def jsStringToNumber (s : Str) : Option ℚ :=
  let t := jsTrim s
  if t = [] then some 0
  else
    let nd : Option (ℤ × ℕ) :=
      match t with
      | '0' :: x :: ds =>
          if x = 'x' ∨ x = 'X' then
            if ds ≠ [] ∧ ds.all isHexDigit then some ((digitsToNatBase 16 ds : ℤ), 1) else none
          else if x = 'o' ∨ x = 'O' then
            if ds ≠ [] ∧ ds.all (fun c => '0' ≤ c ∧ c ≤ '7') then
              some ((digitsToNatBase 8 ds : ℤ), 1) else none
          else if x = 'b' ∨ x = 'B' then
            if ds ≠ [] ∧ ds.all (fun c => c = '0' ∨ c = '1') then
              some ((digitsToNatBase 2 ds : ℤ), 1) else none
          else parseSignedDecimal t
      | _ => parseSignedDecimal t
    nd.bind (fun p => if 2 ^ 1024 * p.2 ≤ p.1.natAbs then none else some (mkRat p.1 p.2))

/-- JavaScript Number() on a possibly-absent cell (undefined gives NaN). -/
def jsToNumber : Option CellValue → Option ℚ
  | none => none
  | some (.num z) => some (z : ℚ)
  | some (.str s) => jsStringToNumber s

/-- JavaScript Math.round: floor of x + 1/2 (halves round toward +infinity),
computed on the exact rational. -/
def jsRound (q : ℚ) : ℤ := Int.fdiv (2 * q.num + (q.den : ℤ)) (2 * (q.den : ℤ))

/-- Clamp an integer into an interval (used only to state properties). -/
def jsClamp (x lo hi : ℤ) : ℤ := max lo (min hi x)

/-- Source function storyPointValue: Number(value); non-finite gives 0, else
Math.max(1, Math.min(5, Math.round(n))). -/
def storyPointValue (v : Option CellValue) : ℤ :=
  match jsToNumber v with
  | none => 0
  | some n => max 1 (min 5 (jsRound n))

/-- Regex ^W(\d{1,2})$ with the i flag: the captured week number, if any. -/
def weekMatch (w : Str) : Option ℕ :=
  match w with
  | c :: ds =>
      if (c = 'W' ∨ c = 'w') ∧ (ds.length = 1 ∨ ds.length = 2) ∧ ds.all Char.isDigit then
        some (digitsToNat ds)
      else none
  | [] => none

/-- String(n).padStart(2, "0"). -/
def padTwo (n : ℕ) : Str :=
  let d := natToStr n
  if d.length < 2 then '0' :: d else d

/-- Source function weekIndex: the week number, or 999 for a non-week code. -/
def weekIndex (w : Str) : ℕ := (weekMatch w).getD 999

/-- Source function previousWeek: the zero-padded code of the preceding week,
or the empty string for week one or a non-week code. -/
def previousWeek (w : Str) : Str :=
  match weekMatch w with
  | none => []
  | some n => if n ≤ 1 then [] else 'W' :: padTwo (n - 1)

/-- ASCII letter ([A-Z] under the case-insensitive flag). -/
def isAsciiLetter (c : Char) : Bool := ('A' ≤ c ∧ c ≤ 'Z') ∨ ('a' ≤ c ∧ c ≤ 'z')

/-- Character class [A-Z0-9] under the case-insensitive flag. -/
def isKeyBodyChar (c : Char) : Bool := isAsciiLetter c ∨ c.isDigit

/-- Match the issue-key pattern [A-Z][A-Z0-9]+-\d+ (case-insensitive) anchored
at the start of the string; the greedy character-class run is necessarily
maximal because the dash is outside the class. -/
def matchKeyAt : Str → Option Str
  | [] => none
  | c :: rest =>
      if isAsciiLetter c then
        let run := rest.takeWhile isKeyBodyChar
        match rest.drop run.length with
        | '-' :: r2 =>
            let ds := r2.takeWhile Char.isDigit
            if run = [] ∨ ds = [] then none else some (c :: run ++ '-' :: ds)
        | _ => none
      else none

/-- Leftmost match of the issue-key pattern, as String.prototype.match. -/
def firstKey : Str → Option Str
  | [] => none
  | c :: rest =>
      match matchKeyAt (c :: rest) with
      | some m => some m
      | none => firstKey rest

/-- After the four letters of http: an optional s (case-insensitive) followed
by the literal ://; returns the consumed characters and the remainder. -/
def matchSchemeTail (cs : Str) : Option (Str × Str) :=
  match cs with
  | c :: ':' :: '/' :: '/' :: r =>
      if c.toLower = 's' then some ([c, ':', '/', '/'], r) else none
  | ':' :: '/' :: '/' :: r => some ([':', '/', '/'], r)
  | _ => none

/-- Characters that terminate the URL body class [^\s|,;]. -/
def isUrlStop (c : Char) : Bool := isJsWs c ∨ c = '|' ∨ c = ',' ∨ c = ';'

/-- Match https?:\/\/[^\s|,;]+ (case-insensitive) anchored at the start. -/
def matchUrlAt (cs : Str) : Option Str :=
  match cs with
  | h :: t1 :: t2 :: p :: rest =>
      if h.toLower = 'h' ∧ t1.toLower = 't' ∧ t2.toLower = 't' ∧ p.toLower = 'p' then
        match matchSchemeTail rest with
        | some (mid, r) =>
            let body := r.takeWhile (fun c => ¬ isUrlStop c)
            if body = [] then none else some (h :: t1 :: t2 :: p :: mid ++ body)
        | none => none
      else none
  | _ => none

/-- Leftmost match of the URL pattern, as String.prototype.match. -/
def firstUrl : Str → Option Str
  | [] => none
  | c :: rest =>
      match matchUrlAt (c :: rest) with
      | some m => some m
      | none => firstUrl rest

/-- The characters after a leading https?:\/\/ scheme, if the string starts
with one (case-insensitive). -/
def schemeSplit (body : Str) : Option Str :=
  match body with
  | h :: t1 :: t2 :: p :: rest =>
      if h.toLower = 'h' ∧ t1.toLower = 't' ∧ t2.toLower = 't' ∧ p.toLower = 'p' then
        (matchSchemeTail rest).map Prod.snd
      else none
  | _ => none

/-- Match the anchored markdown-link pattern
of the source, returning the label and the URL. -/
def matchMarkdown (cs : Str) : Option (Str × Str) :=
  match cs with
  | '[' :: rest =>
      let label := rest.takeWhile (fun c => c ≠ ']')
      (match rest.drop label.length with
       | ']' :: '(' :: r2 =>
           if label = [] then none
           else
             let body := r2.takeWhile (fun c => ¬ isJsWs c ∧ c ≠ ')')
             (match schemeSplit body with
              | some tail =>
                  if tail = [] then none
                  else
                    (match r2.drop body.length with
                     | [')'] => some (label, body)
                     | _ => none)
              | none => none)
       | _ => none)
  | _ => none

/-- The parsed identifier and URL of a key cell. -/
structure KeyInfo where
  taskId : Str
  taskUrl : Str
deriving DecidableEq, Repr

/-- Source function parseTaskKeyCell: markdown link, then URL with an optional
key, then bare key, then the raw text or the placeholder. -/
def parseTaskKeyCell (v : Option CellValue) : KeyInfo :=
  let raw := jsTrim (jsStringOfCell v)
  match matchMarkdown raw with
  | some (label, url) => ⟨label, url⟩
  | none =>
      match firstUrl raw with
      | some url =>
          ⟨(jsOr ((firstKey raw).getD []) (jsOr ((firstKey url).getD []) raw)).map Char.toUpper,
           url⟩
      | none =>
          match firstKey raw with
          | some k => ⟨k.map Char.toUpper, []⟩
          | none => ⟨jsOr raw (str "-"), []⟩

/-- Whether a field needs CSV quoting: it contains a comma, newline or quote. -/
def needsQuote (s : Str) : Bool := s.any (fun c => c = ',' ∨ c = '\n' ∨ c = '"')

/-- Double every double-quote character. -/
def dupQuotes (s : Str) : Str :=
  s.foldr (fun c acc => if c = '"' then '"' :: '"' :: acc else c :: acc) []

/-- Source function escapeCsv. -/
def escapeCsv (s : Str) : Str :=
  if needsQuote s then '"' :: dupQuotes s ++ ['"'] else s

/-- Source function toCsv: header line then data lines, comma-joined fields,
newline-joined lines.  Cells are modelled after String() coercion. -/
def toCsv (headers : List Str) (rows : List (List Str)) : Str :=
  joinWith ['\n'] ((headers :: rows).map (fun r => joinWith [','] (r.map escapeCsv)))

/-- Read one quoted CSV field body (after the opening quote): a doubled quote
is an escaped quote, a single quote closes the field. -/
def readQuoted : Str → Str × Str
  | [] => ([], [])
  | c :: rest =>
      if c = '"' then
        match rest with
        | [] => ([], [])
        | c2 :: rest2 =>
            if c2 = '"' then
              let fr := readQuoted rest2
              ('"' :: fr.1, fr.2)
            else ([], rest)
      else
        let fr := readQuoted rest
        (c :: fr.1, fr.2)

/-- Read one CSV field under the same escaping rule as the serializer; the
remainder starts with a comma, a newline, or is empty. -/
def readField : Str → Str × Str
  | '"' :: rest => readQuoted rest
  | cs =>
      let f := cs.takeWhile (fun c => c ≠ ',' ∧ c ≠ '\n')
      (f, cs.drop f.length)

/-- Read the fields of one record; returns the remainder after a newline when
more records follow.  The fuel argument only serves structural recursion and
is kept larger than the input length. -/
def readRecordF : ℕ → Str → List Str × Option Str
  | 0, _ => ([], none)
  | fuel + 1, cs =>
      let fr := readField cs
      match fr.2 with
      | ',' :: r =>
          let rr := readRecordF fuel r
          (fr.1 :: rr.1, rr.2)
      | '\n' :: r => ([fr.1], some r)
      | _ => ([fr.1], none)

/-- Read all records of a CSV text. -/
def readLinesF : ℕ → Str → List (List Str)
  | 0, _ => []
  | fuel + 1, cs =>
      match readRecordF (fuel + 1) cs with
      | (r, none) => [r]
      | (r, some rest) => r :: readLinesF fuel rest

/-- Split a serialized report back into records under the same escaping rule
as the serializer. -/
def parseCsv (cs : Str) : List (List Str) := readLinesF (cs.length + 1) cs

/-- A normalized task record. -/
structure Task where
  taskId : Str
  taskUrl : Str
  issueType : Str
  assignee : Str
  storyPoint : ℤ
  name : Str
  weeks : List Str
  epicLink : Str
  module : Str
  status : Status
deriving DecidableEq, Repr

/-- The grouping identity key used by every merging view of the source:
the JavaScript expression task.taskId || module + "||" + name. -/
def taskKeyOf (t : Task) : Str := jsOr t.taskId (t.module ++ str "||" ++ t.name)

/-- A raw record: an ordered mapping from header text to a scalar cell. -/
abbrev RawRow := List (Str × CellValue)

/-- Property read on a raw record (absent keys give undefined). -/
def rowGet (r : RawRow) (k : Str) : Option CellValue :=
  (r.find? (fun p => p.1 = k)).map Prod.snd

/-- Source function normalizeText: lowercase, remove underscore, hyphen and
whitespace characters, trim. -/
def normalizeText (s : Str) : Str :=
  jsTrim ((s.map Char.toLower).filter (fun c => ¬ (c = '_' ∨ c = '-' ∨ isJsWs c)))

/-- Source function detectColumn: the first column whose normalized form
equals a normalized alias, or the empty string. -/
def detectColumn (columns : List Str) (aliases : List Str) : Str :=
  (columns.find? (fun c => (aliases.map normalizeText).contains (normalizeText c))).getD []

/-- The nine required logical fields. -/
inductive FieldName
  | taskId
  | issueType
  | assignee
  | storyPoint
  | name
  | labels
  | epicLink
  | module
  | status
deriving DecidableEq, Repr

instance : Fintype FieldName :=
  ⟨⟨{FieldName.taskId, FieldName.issueType, FieldName.assignee, FieldName.storyPoint,
     FieldName.name, FieldName.labels, FieldName.epicLink, FieldName.module,
     FieldName.status}, by decide⟩, by intro x; cases x <;> decide⟩

/-- The alias table COLUMN_ALIASES of the source. -/
def aliasesOf : FieldName → List Str
  | .taskId => [str "key", str "taskid", str "task id", str "id", str "ticketid", str "jiraid"]
  | .issueType => [str "issuetype", str "issue type", str "type"]
  | .assignee => [str "assignee"]
  | .storyPoint => [str "storypoints", str "story points", str "storypoint", str "story point"]
  | .name => [str "summary", str "name", str "taskname", str "task name"]
  | .labels => [str "labels", str "label"]
  | .epicLink => [str "epiclink", str "epic link", str "epic"]
  | .module => [str "modulename", str "module name", str "module", str "project", str "projectname"]
  | .status => [str "status", str "state"]

/-- Display names used in the missing-columns report. -/
def displayName : FieldName → Str
  | .taskId => str "Key"
  | .issueType => str "Issue Type"
  | .assignee => str "Assignee"
  | .storyPoint => str "Story Points"
  | .name => str "Summary"
  | .labels => str "Labels"
  | .epicLink => str "Epic Link"
  | .module => str "ModuleName"
  | .status => str "Status"

/-- The order in which the source checks the required fields. -/
def requiredOrder : List FieldName :=
  [.taskId, .issueType, .assignee, .storyPoint, .name, .labels, .epicLink, .module, .status]

/-- The working column set: union of keys across all records, in first-seen
order, with empty header names dropped. -/
def columnsOf (rows : List RawRow) : List Str :=
  dedupFirst ((rows.flatMap (fun r => r.map Prod.fst)).filter (fun k => k ≠ []))

/-- The resolved header for one logical field. -/
def resolvedCol (rows : List RawRow) (f : FieldName) : Str :=
  detectColumn (columnsOf rows) (aliasesOf f)

/-- Display names of the unresolved required fields, in check order. -/
def missingOf (rows : List RawRow) : List Str :=
  (requiredOrder.filter (fun f => resolvedCol rows f = [])).map displayName

/-- The resolved column names for all nine logical fields. -/
structure Cols where
  taskId : Str
  issueType : Str
  assignee : Str
  storyPoint : Str
  name : Str
  labels : Str
  epicLink : Str
  module : Str
  status : Str
deriving DecidableEq, Repr

/-- Resolve all columns of an upload. -/
def colsOf (rows : List RawRow) : Cols :=
  ⟨resolvedCol rows .taskId, resolvedCol rows .issueType, resolvedCol rows .assignee,
   resolvedCol rows .storyPoint, resolvedCol rows .name, resolvedCol rows .labels,
   resolvedCol rows .epicLink, resolvedCol rows .module, resolvedCol rows .status⟩

/-- Source row-to-task normalization (the map inside handleFileUpload). -/
def normalizeRow (cols : Cols) (row : RawRow) : Task :=
  let ki := parseTaskKeyCell (rowGet row cols.taskId)
  { taskId := ki.taskId
    taskUrl := ki.taskUrl
    issueType := jsCellOrDefault (rowGet row cols.issueType) (str "-")
    assignee := jsCellOrDefault (rowGet row cols.assignee) (str "Unknown")
    storyPoint := storyPointValue (rowGet row cols.storyPoint)
    name := jsCellOrDefault (rowGet row cols.name) []
    weeks := parseWeekLabels (rowGet row cols.labels)
    epicLink := jsCellOrDefault (rowGet row cols.epicLink) (str "-")
    module := jsCellOrDefault (rowGet row cols.module) (str "Unknown")
    status := normalizeStatus (rowGet row cols.status) }

/-- The user-visible state produced by an upload. -/
structure UploadState where
  error : Str
  rawRows : List RawRow
  tasks : List Task
deriving DecidableEq, Repr

/-- The pure core of handleFileUpload, after the workbook has been decoded
into raw records: empty-input check, column resolution with the
missing-columns failure, then row normalization. -/
def uploadOutcome (rows : List RawRow) : UploadState :=
  if rows = [] then ⟨str "File không có dữ liệu.", [], []⟩
  else if missingOf rows ≠ [] then
    ⟨str "Thiếu cột bắt buộc: " ++ joinWith (str ", ") (missingOf rows), rows, []⟩
  else ⟨[], rows, rows.map (normalizeRow (colsOf rows))⟩

/-- One merge step of the per-week status map: keep the more advanced status
(strictly greater advancement index wins; ties keep the existing entry). -/
def weekStep (s : Status) (p : List (Str × Status)) (w : Str) : List (Str × Status) :=
  match alGet p w with
  | none => alSet p w s
  | some cur => if statusIndex cur < statusIndex s then alSet p w s else p

/-- Merge one task's weeks into its per-week status map. -/
def taskWeekFold (t : Task) (p : List (Str × Status)) : List (Str × Status) :=
  t.weeks.foldl (weekStep t.status) p

/-- One task's update of the per-identity-key status map. -/
def buildStep (m : List (Str × List (Str × Status))) (t : Task) :
    List (Str × List (Str × Status)) :=
  alSet m (taskKeyOf t) (taskWeekFold t ((alGet m (taskKeyOf t)).getD []))

/-- The per-identity-key, per-week merged status map (taskStatusByWeek). -/
def buildStatusMap (tasks : List Task) : List (Str × List (Str × Status)) :=
  tasks.foldl buildStep []

/-- Lookup in a two-level association map (Map.get(k)?.get(w)). -/
def lookup2 (m : List (Str × List (Str × Status))) (k w : Str) : Option Status :=
  alGet ((alGet m k).getD []) w

/-- The merged status of one identity key in one week. -/
def statusMapLookup (tasks : List Task) (k w : Str) : Option Status :=
  lookup2 (buildStatusMap tasks) k w

/-- Most advanced of an optional current status and a new status. -/
def statusMax1 (o : Option Status) (s : Status) : Status :=
  match o with
  | none => s
  | some c => if statusIndex c < statusIndex s then s else c

/-- Most advanced status of a list, or none when the list is empty. -/
def statusMax (l : List Status) : Option Status :=
  l.foldl (fun o s => some (statusMax1 o s)) none

/-- Code-point lexicographic string comparison (the model of localeCompare). -/
def cmpChars : Str → Str → Ordering
  | [], [] => .eq
  | [], _ :: _ => .lt
  | _ :: _, [] => .gt
  | a :: l1, b :: l2 => (compare a.toNat b.toNat).then (cmpChars l1 l2)

/-- The grouped-listing comparator: module, assignee, status rank, name. -/
def cmpProjectRow (a b : Task × Bool) : Ordering :=
  (cmpChars a.1.module b.1.module).then
    ((cmpChars a.1.assignee b.1.assignee).then
      ((compare (statusIndex a.1.status) (statusIndex b.1.status)).then
        (cmpChars a.1.name b.1.name)))

/-- Sort relation of the grouped listing (comparator result not greater). -/
def projectRowLe (a b : Task × Bool) : Prop := cmpProjectRow a b ≠ .gt

instance : DecidableRel projectRowLe := fun _ _ => instDecidableNot

/-- The week, module and assignee filter of the grouped listing. -/
def taskMatches (wF mF aF : Str) (t : Task) : Bool :=
  (wF = str "all" ∨ wF ∈ t.weeks) ∧ (mF = str "all" ∨ t.module = mF) ∧
    (aF = str "all" ∨ t.assignee = aF)

/-- One output row of the grouped project listing. -/
structure PRow where
  module : Str
  assignee : Str
  taskKey : Str
  taskId : Str
  taskUrl : Str
  issueType : Str
  taskName : Str
  epicLink : Str
  status : Status
  storyPoint : ℤ
  weeks : Str
  prevDoneStillAppear : Bool
  prevWeek : Str
  showModule : Bool
  showAssignee : Bool
  moduleRowSpan : ℕ
  assigneeRowSpan : ℕ
deriving DecidableEq, Repr

/-- The concatenated module and assignee key used for assignee grouping. -/
def assigneeKeyOf (m a : Str) : Str := m ++ str "||" ++ a

/-- Count map keyed by a projection, as the counting pass of the source. -/
def countFold {α : Type} (key : α → Str) (l : List α) : List (Str × ℕ) :=
  l.foldl (fun mc x => alSet mc (key x) ((alGet mc (key x)).getD 0 + 1)) []

/-- One output row of the grouped listing, given the group marks. -/
def mkPRow (mc ac : List (Str × ℕ)) (prevW : Str) (tw : Task × Bool)
    (showM showA : Bool) : PRow :=
  { module := tw.1.module
    assignee := tw.1.assignee
    taskKey := taskKeyOf tw.1
    taskId := jsOr tw.1.taskId (str "-")
    taskUrl := jsOr tw.1.taskUrl []
    issueType := jsOr tw.1.issueType (str "-")
    taskName := jsOr tw.1.name (str "-")
    epicLink := jsOr tw.1.epicLink (str "-")
    status := tw.1.status
    storyPoint := tw.1.storyPoint
    weeks := joinWith (str ",") tw.1.weeks
    prevDoneStillAppear := tw.2
    prevWeek := prevW
    showModule := showM
    showAssignee := showA
    moduleRowSpan := (alGet mc tw.1.module).getD 1
    assigneeRowSpan := (alGet ac (assigneeKeyOf tw.1.module tw.1.assignee)).getD 1 }

/-- The first-of-group marking scan of the grouped listing, carrying the
seen-module and seen-assignee sets. -/
def spanGo (mc ac : List (Str × ℕ)) (prevW : Str) :
    List Str → List Str → List (Task × Bool) → List PRow
  | _, _, [] => []
  | seenM, seenA, (t, warn) :: rest =>
      let ak := assigneeKeyOf t.module t.assignee
      let showM := decide (t.module ∉ seenM)
      let showA := decide (ak ∉ seenA)
      mkPRow mc ac prevW (t, warn) showM showA ::
        spanGo mc ac prevW (if showM then t.module :: seenM else seenM)
          (if showA then ak :: seenA else seenA) rest

/-- The preceding-week code used by the staleness warning. -/
def prevWeekOf (wF : Str) : Str := if wF ≠ str "all" then previousWeek wF else []

/-- Filtered tasks paired with their staleness warning. -/
def withWarn (tasks : List Task) (wF mF aF : Str) : List (Task × Bool) :=
  (tasks.filter (taskMatches wF mF aF)).map
    (fun t => (t, decide (prevWeekOf wF ≠ [] ∧
      lookup2 (buildStatusMap tasks) (taskKeyOf t) (prevWeekOf wF) = some .done)))

/-- The filtered, warning-annotated rows in display order. -/
def sortedRows (tasks : List Task) (wF mF aF : Str) : List (Task × Bool) :=
  List.insertionSort projectRowLe (withWarn tasks wF mF aF)

/-- Source view projectRows: merged status map, filter, staleness warning,
sort, group counts and first-of-group marks. -/
def projectRows (tasks : List Task) (wF mF aF : Str) : List PRow :=
  spanGo (countFold (fun r : Task × Bool => r.1.module) (sortedRows tasks wF mF aF))
    (countFold (fun r : Task × Bool => assigneeKeyOf r.1.module r.1.assignee)
      (sortedRows tasks wF mF aF))
    (prevWeekOf wF) [] [] (sortedRows tasks wF mF aF)

/-- One row of the assignee workload histogram. -/
structure WRow where
  assignee : Str
  point1 : ℕ
  point2 : ℕ
  point3 : ℕ
  point4 : ℕ
  point5 : ℕ
  total : ℕ
deriving DecidableEq, Repr

/-- The workload comparator: total descending, then assignee ascending. -/
def cmpWRow (a b : WRow) : Ordering :=
  (compare b.total a.total).then (cmpChars a.assignee b.assignee)

/-- Sort relation of the workload histogram. -/
def wrowLe (a b : WRow) : Prop := cmpWRow a b ≠ .gt

instance : DecidableRel wrowLe := fun _ _ => instDecidableNot

/-- Source view assigneeRows: filter by the week multi-select, accumulate
per-assignee difficulty buckets, sort. -/
def assigneeRows (tasks : List Task) (allWeeks : Bool) (filters : List Str) : List WRow :=
  let m := tasks.foldl
    (fun mp t =>
      let matched := allWeeks ∨ filters = [] ∨ t.weeks.any (fun w => w ∈ filters)
      if matched then
        let prev := (alGet mp t.assignee).getD ⟨t.assignee, 0, 0, 0, 0, 0, 0⟩
        alSet mp t.assignee
          { prev with
            point1 := prev.point1 + (if t.storyPoint = 1 then 1 else 0)
            point2 := prev.point2 + (if t.storyPoint = 2 then 1 else 0)
            point3 := prev.point3 + (if t.storyPoint = 3 then 1 else 0)
            point4 := prev.point4 + (if t.storyPoint = 4 then 1 else 0)
            point5 := prev.point5 + (if t.storyPoint = 5 then 1 else 0)
            total := prev.total + 1 }
      else mp)
    ([] : List (Str × WRow))
  List.insertionSort wrowLe (m.map Prod.snd)

/-- The per-identity record accumulated by the comparison view. -/
structure CEntry where
  taskId : Str
  taskName : Str
  module : Str
  assignee : Str
  statusByWeek : List (Str × Status)
deriving DecidableEq, Repr

/-- One row of the two-week comparison view; the week statuses are optional,
none standing for the "-" no-data sentinel of the source. -/
structure CRow where
  taskKey : Str
  taskId : Str
  taskName : Str
  module : Str
  assignee : Str
  statusA : Option Status
  statusB : Option Status
  transition : Str
  invalidDoneBoth : Bool
deriving DecidableEq, Repr

/-- One task's update of the comparison view's per-identity map. -/
def cmpStep (m : List (Str × CEntry)) (t : Task) : List (Str × CEntry) :=
  let k := taskKeyOf t
  let prev := (alGet m k).getD
    ⟨jsOr t.taskId (str "-"), jsOr t.name (str "-"), t.module, t.assignee, []⟩
  alSet m k { prev with statusByWeek := taskWeekFold t prev.statusByWeek }

/-- The per-identity fold of the comparison view (taskMap). -/
def cmpFold (tasks : List Task) : List (Str × CEntry) :=
  tasks.foldl cmpStep []

/-- The transition label of the comparison view. -/
def transitionText (weekB : Str) (sa sb : Option Status) : Str :=
  match sa, sb with
  | none, none => str "Không có dữ liệu ở 2 tuần"
  | none, some _ => str "Mới xuất hiện ở " ++ weekB
  | some _, none => str "Không còn ở " ++ weekB
  | some a, some b =>
      if a = b then str "Không đổi"
      else statusText a ++ str " -> " ++ statusText b

/-- The comparison comparator: module, assignee, invalid-flag first, task id. -/
def cmpCRow (a b : CRow) : Ordering :=
  (cmpChars a.module b.module).then
    ((cmpChars a.assignee b.assignee).then
      (((compare (Bool.toNat b.invalidDoneBoth) (Bool.toNat a.invalidDoneBoth))).then
        (cmpChars a.taskId b.taskId)))

/-- Sort relation of the comparison view. -/
def crowLe (a b : CRow) : Prop := cmpCRow a b ≠ .gt

instance : DecidableRel crowLe := fun _ _ => instDecidableNot

/-- Projection of one per-identity entry onto a comparison row. -/
def cmpRowOf (weekA weekB : Str) (p : Str × CEntry) : CRow :=
  let sa := alGet p.2.statusByWeek weekA
  let sb := alGet p.2.statusByWeek weekB
  { taskKey := p.1
    taskId := p.2.taskId
    taskName := p.2.taskName
    module := p.2.module
    assignee := p.2.assignee
    statusA := sa
    statusB := sb
    transition := transitionText weekB sa sb
    invalidDoneBoth := decide (sa = some Status.done ∧ sb = some Status.done) }

/-- Source view compareRows: empty when a week is unset; otherwise the merged
per-identity map projected on the two weeks, filtered to tasks present in at
least one of them, and sorted. -/
def compareRows (tasks : List Task) (weekA weekB : Str) : List CRow :=
  if weekA = [] ∨ weekB = [] then []
  else
    List.insertionSort crowLe
      (((cmpFold tasks).map (cmpRowOf weekA weekB)).filter
        (fun r => r.statusA ≠ none ∨ r.statusB ≠ none))

theorem alGet_cons {β : Type} (p : Str × β) (rest : List (Str × β)) (k : Str) :
    alGet (p :: rest) k = if p.1 = k then some p.2 else alGet rest k := by
  by_cases h : p.1 = k <;> simp [alGet, List.find?_cons, h]

theorem alGet_alSet_self {β : Type} (m : List (Str × β)) (k : Str) (v : β) :
    alGet (alSet m k v) k = some v := by
  induction m with
  | nil => simp [alSet, alGet_cons]
  | cons p rest ih =>
      obtain ⟨k', v'⟩ := p
      by_cases h : k' = k
      · simp [alSet, h, alGet_cons]
      · simpa [alSet, h, alGet_cons] using ih

theorem alGet_alSet_ne {β : Type} (m : List (Str × β)) (k k' : Str) (v : β) (h : k' ≠ k) :
    alGet (alSet m k v) k' = alGet m k' := by
  induction m with
  | nil =>
      have hne : ¬ k = k' := fun he => h he.symm
      simp [alSet, alGet_cons, hne]
  | cons p rest ih =>
      obtain ⟨k0, v0⟩ := p
      by_cases hp : k0 = k
      · subst hp
        have hne : ¬ k0 = k' := fun he => h he.symm
        simp [alSet, alGet_cons, hne]
      · rw [show alSet ((k0, v0) :: rest) k v = (k0, v0) :: alSet rest k v by simp [alSet, hp],
          alGet_cons, alGet_cons, ih]

theorem statusMax1_absorb (o : Option Status) (s : Status) :
    statusMax1 (some (statusMax1 o s)) s = statusMax1 o s := by
  rcases o with _ | c <;> cases s <;> first | rfl | (cases c <;> rfl)

theorem alGet_weekStep_self (s : Status) (p : List (Str × Status)) (w : Str) :
    alGet (weekStep s p w) w = some (statusMax1 (alGet p w) s) := by
  unfold weekStep statusMax1
  rcases h : alGet p w with _ | c
  · simp [alGet_alSet_self]
  · by_cases hlt : statusIndex c < statusIndex s
    · simp [hlt, alGet_alSet_self]
    · simp [hlt, h]

theorem alGet_weekStep_ne (s : Status) (p : List (Str × Status)) (w w' : Str) (h : w' ≠ w) :
    alGet (weekStep s p w) w' = alGet p w' := by
  unfold weekStep
  rcases alGet p w with _ | c
  · exact alGet_alSet_ne p w w' s h
  · by_cases hlt : statusIndex c < statusIndex s
    · simp [hlt, alGet_alSet_ne _ _ _ _ h]
    · simp [hlt]

theorem alGet_weekFold (ws : List Str) (s : Status) (p : List (Str × Status)) (w : Str) :
    alGet (ws.foldl (weekStep s) p) w =
      if w ∈ ws then some (statusMax1 (alGet p w) s) else alGet p w := by
  induction ws generalizing p with
  | nil => simp
  | cons w0 ws ih =>
      rw [List.foldl_cons, ih (weekStep s p w0)]
      by_cases hw : w = w0
      · subst hw
        by_cases hmem : w ∈ ws
        · simp [hmem, alGet_weekStep_self, statusMax1_absorb]
        · simp [hmem, alGet_weekStep_self]
      · by_cases hmem : w ∈ ws
        · simp [hmem, alGet_weekStep_ne s p w0 w hw, hw]
        · simp [hmem, alGet_weekStep_ne s p w0 w hw, hw]

theorem statusMax_concat (l : List Status) (s : Status) :
    statusMax (l ++ [s]) = some (statusMax1 (statusMax l) s) := by
  simp [statusMax, List.foldl_append]

theorem lookup2_buildStep (m : List (Str × List (Str × Status))) (t : Task) (k w : Str) :
    lookup2 (buildStep m t) k w =
      if taskKeyOf t = k ∧ w ∈ t.weeks then some (statusMax1 (lookup2 m k w) t.status)
      else lookup2 m k w := by
  unfold buildStep lookup2
  by_cases hk : taskKeyOf t = k
  · subst hk
    rw [alGet_alSet_self]
    show alGet (taskWeekFold t ((alGet m (taskKeyOf t)).getD [])) w = _
    unfold taskWeekFold
    rw [alGet_weekFold]
    by_cases hw : w ∈ t.weeks <;> simp [hw]
  · rw [alGet_alSet_ne _ _ _ _ (fun he => hk he.symm)]
    simp [hk]

/-- Characterization of the merged per-identity per-week map: the recorded
status of key k in week w is the most advanced status among the rows with
that identity key that carry that week label. -/
theorem statusMapLookup_eq (tasks : List Task) (k w : Str) :
    statusMapLookup tasks k w =
      statusMax ((tasks.filter (fun t => taskKeyOf t = k ∧ w ∈ t.weeks)).map Task.status) := by
  induction tasks using List.reverseRecOn with
  | nil => rfl
  | append_singleton l t ih =>
      unfold statusMapLookup buildStatusMap at *
      rw [List.foldl_append, List.foldl_cons, List.foldl_nil, lookup2_buildStep, ih,
        List.filter_append, List.map_append]
      by_cases hc : taskKeyOf t = k ∧ w ∈ t.weeks
      · have : List.filter (fun t' => decide (taskKeyOf t' = k ∧ w ∈ t'.weeks)) [t] = [t] := by
          simp [hc.1, hc.2]
        rw [this, if_pos hc]
        simp [statusMax_concat]
      · have : List.filter (fun t' => decide (taskKeyOf t' = k ∧ w ∈ t'.weeks)) [t] = [] := by
          simp only [List.filter_cons, List.filter_nil]
          rw [decide_eq_false hc]
          rfl
        rw [this, if_neg hc]
        simp

theorem statusMax_perm {l l' : List Status} (h : l.Perm l') : statusMax l = statusMax l' := by
  unfold statusMax
  haveI : RightCommutative (fun (o : Option Status) (s : Status) => some (statusMax1 o s)) :=
    ⟨by decide⟩
  exact h.foldl_eq none

theorem mem_dedupFirstGo (l : List Str) (seen : List Str) (x : Str) :
    x ∈ dedupFirstGo seen l ↔ x ∈ l ∧ x ∉ seen := by
  induction l generalizing seen with
  | nil => simp [dedupFirstGo]
  | cons y ys ih =>
      by_cases hy : y ∈ seen
      · rw [show dedupFirstGo seen (y :: ys) = dedupFirstGo seen ys by simp [dedupFirstGo, hy]]
        rw [ih]
        constructor
        · exact fun hx => ⟨List.mem_cons_of_mem y hx.1, hx.2⟩
        · rintro ⟨hx, hns⟩
          rcases List.mem_cons.mp hx with he | hm
          · exact absurd (he ▸ hy) hns
          · exact ⟨hm, hns⟩
      · rw [show dedupFirstGo seen (y :: ys) = y :: dedupFirstGo (y :: seen) ys by
          simp [dedupFirstGo, hy]]
        rw [List.mem_cons, ih]
        constructor
        · rintro (he | ⟨hm, hns⟩)
          · exact ⟨he ▸ List.mem_cons_self y ys, he ▸ hy⟩
          · exact ⟨List.mem_cons_of_mem y hm,
              fun hs => hns (List.mem_cons_of_mem y hs)⟩
        · rintro ⟨hx, hns⟩
          rcases List.mem_cons.mp hx with he | hm
          · exact Or.inl he
          · by_cases hxy : x = y
            · exact Or.inl hxy
            · exact Or.inr ⟨hm, fun hs => by
                rcases List.mem_cons.mp hs with h1 | h2
                · exact hxy h1
                · exact hns h2⟩

theorem nodup_dedupFirstGo (l : List Str) (seen : List Str) :
    (dedupFirstGo seen l).Nodup := by
  induction l generalizing seen with
  | nil => simp [dedupFirstGo]
  | cons y ys ih =>
      by_cases hy : y ∈ seen
      · rw [show dedupFirstGo seen (y :: ys) = dedupFirstGo seen ys by simp [dedupFirstGo, hy]]
        exact ih seen
      · rw [show dedupFirstGo seen (y :: ys) = y :: dedupFirstGo (y :: seen) ys by
          simp [dedupFirstGo, hy]]
        refine List.nodup_cons.mpr ⟨fun hmem => ?_, ih (y :: seen)⟩
        exact ((mem_dedupFirstGo ys (y :: seen) y).mp hmem).2 (List.mem_cons_self y seen)

/-- A concrete task used by counterexamples and witnesses. -/
def mkTask (id mod asg nm : String) (wks : List String) (st : Status) : Task :=
  ⟨str id, [], str "Task", str asg, 1, str nm, wks.map str, str "-", str mod, st⟩

def c3DoneTask : Task := mkTask "AB-1" "M" "u" "t" ["W01"] .done

def c3OtherTask : Task := mkTask "AB-1" "M" "u" "t" ["W01"] .other

/-- C3: for every identity key and week, the merged status recorded in the
per-identity per-week map is the most advanced status (advancement order
open < inprogress < done < other) among the rows with that identity key
carrying that week label; in particular a row normalizing to other overrides
a done row for the same task and week, and the merged result is invariant
under reordering of the rows. -/
theorem claim_C3_merged_status_is_max :
    (∀ (tasks : List Task) (k w : Str),
       statusMapLookup tasks k w =
         statusMax ((tasks.filter (fun t => taskKeyOf t = k ∧ w ∈ t.weeks)).map Task.status))
  ∧ (∀ tasks tasks' : List Task, tasks.Perm tasks' →
       ∀ k w, statusMapLookup tasks k w = statusMapLookup tasks' k w)
  ∧ statusMapLookup [c3DoneTask, c3OtherTask] (str "AB-1") (str "W01") = some Status.other
  ∧ statusMapLookup [c3OtherTask, c3DoneTask] (str "AB-1") (str "W01") = some Status.other := by
  refine ⟨statusMapLookup_eq, ?_, by decide, by decide⟩
  intro tasks tasks' h k w
  rw [statusMapLookup_eq, statusMapLookup_eq]
  exact statusMax_perm ((h.filter _).map _)

/-- Witness for C3 at a concrete reordering. -/
theorem claim_C3_merged_status_is_max_witness :
    statusMapLookup [c3DoneTask, c3OtherTask] (str "AB-1") (str "W01") =
      statusMapLookup [c3OtherTask, c3DoneTask] (str "AB-1") (str "W01") :=
  claim_C3_merged_status_is_max.2.1 [c3DoneTask, c3OtherTask] [c3OtherTask, c3DoneTask]
    (by decide) (str "AB-1") (str "W01")

/-- C5: story-point normalization is 0 on non-numeric or non-finite input and
clamp(round(v), 1, 5) on finite input; in particular "abc" gives 0, "2.6"
gives 3, "9" gives 5 and "0" gives 1. -/
theorem claim_C5_story_point_normalization :
    (∀ v, jsToNumber v = none → storyPointValue v = 0)
  ∧ (∀ v q, jsToNumber v = some q → storyPointValue v = jsClamp (jsRound q) 1 5)
  ∧ storyPointValue (some (.str (str "abc"))) = 0
  ∧ storyPointValue (some (.str (str "2.6"))) = 3
  ∧ storyPointValue (some (.str (str "9"))) = 5
  ∧ storyPointValue (some (.str (str "0"))) = 1 := by
  refine ⟨?_, ?_, by decide, by decide, by decide, by decide⟩
  · intro v h
    unfold storyPointValue
    rw [h]
  · intro v q h
    unfold storyPointValue
    rw [h]
    rfl

/-- Witness for C5 at the concrete input "9". -/
theorem claim_C5_story_point_normalization_witness :
    storyPointValue (some (.str (str "9"))) = jsClamp (jsRound 9) 1 5 :=
  claim_C5_story_point_normalization.2.1 (some (.str (str "9"))) 9 (by decide)

/-- C6: the parsed week set of a labels cell consists exactly of the distinct
tokens that, after bracket and quote stripping, separator-run splitting,
trimming and uppercasing, match the W-plus-one-or-two-digits pattern; other
tokens are dropped, and the two spellings of one week number stay distinct,
the input "w1, W01, w2" parsing to the set containing W1, W01 and W2. -/
theorem claim_C6_week_label_parsing :
    (∀ v, (parseWeekLabels v).Nodup ∧
       (∀ wk, wk ∈ parseWeekLabels v ↔
          (wk ∈ (splitRuns isSepChar ((jsStringOfCell v).map stripBracketQuote)).map
              (fun t => (jsTrim t).map Char.toUpper) ∧ isWeekCode wk = true)))
  ∧ parseWeekLabels (some (.str (str "w1, W01, w2"))) = [str "W1", str "W01", str "W2"] := by
  refine ⟨fun v => ⟨nodup_dedupFirstGo _ [], fun wk => ?_⟩, by decide⟩
  unfold parseWeekLabels dedupFirst
  rw [mem_dedupFirstGo]
  simp [List.mem_filter]

/-- Witness for C6 at a concrete labels cell (instantiating the universal). -/
theorem claim_C6_week_label_parsing_witness :
    (parseWeekLabels (some (.str (str "w1, W01, w2")))).Nodup ∧
      (str "W01" ∈ parseWeekLabels (some (.str (str "w1, W01, w2"))) ↔
        (str "W01" ∈ (splitRuns isSepChar
            ((jsStringOfCell (some (.str (str "w1, W01, w2")))).map stripBracketQuote)).map
            (fun t => (jsTrim t).map Char.toUpper) ∧ isWeekCode (str "W01") = true)) :=
  ⟨(claim_C6_week_label_parsing.1 _).1, (claim_C6_week_label_parsing.1 _).2 (str "W01")⟩

def c10Rows : List RawRow :=
  [[(str "Key", .str (str "AB-1")), (str "Issue Type", .str (str "Task")),
    (str "Assignee", .str (str "u")), (str "Story Points", .str []),
    (str "Summary", .str (str "n")), (str "Labels", .str (str "W01")),
    (str "Epic Link", .str (str "e")), (str "ModuleName", .str (str "m")),
    (str "Status", .str (str "Open"))]]

/-- C10: a blank story-point cell converts to the finite number 0, is rounded
and clamped up to 1 (not the unscored sentinel 0), and such a task is counted
in difficulty bucket 1 of the assignee workload histogram. -/
theorem claim_C10_blank_story_point_is_one :
    jsStringToNumber [] = some 0
  ∧ storyPointValue (some (.str [])) = 1
  ∧ (∀ cols row, rowGet row cols.storyPoint = some (.str []) →
       (normalizeRow cols row).storyPoint = 1)
  ∧ (uploadOutcome c10Rows).tasks.map Task.storyPoint = [1]
  ∧ assigneeRows (uploadOutcome c10Rows).tasks true [] = [⟨str "u", 1, 0, 0, 0, 0, 1⟩] := by
  refine ⟨by decide, by decide, ?_, by decide, by decide⟩
  intro cols row h
  show storyPointValue (rowGet row cols.storyPoint) = 1
  rw [h]
  decide

/-- Witness for C10 at the concrete upload. -/
theorem claim_C10_blank_story_point_is_one_witness :
    (normalizeRow (colsOf c10Rows) (c10Rows.headI)).storyPoint = 1 :=
  claim_C10_blank_story_point_is_one.2.2.1 (colsOf c10Rows) c10Rows.headI (by decide)

theorem displayName_injective (f g : FieldName) (h : displayName f = displayName g) : f = g := by
  revert h
  cases f <;> cases g <;> decide

theorem mem_missingOf (rows : List RawRow) (f : FieldName) :
    displayName f ∈ missingOf rows ↔ resolvedCol rows f = [] := by
  unfold missingOf
  rw [List.mem_map]
  constructor
  · rintro ⟨g, hg, he⟩
    obtain ⟨-, hres⟩ := List.mem_filter.mp hg
    have hgf : g = f := displayName_injective g f he
    subst hgf
    exact of_decide_eq_true hres
  · intro h
    refine ⟨f, List.mem_filter.mpr ⟨?_, by simp [h]⟩, rfl⟩
    cases f <;> decide

def c8Rows : List RawRow :=
  [[(str "Key", .str (str "AB-1")), (str "Issue Type", .str (str "Task")),
    (str "Assignee", .str (str "u")), (str "Story Points", .str (str "3")),
    (str "Summary", .str (str "n")), (str "Labels", .str (str "W01")),
    (str "Epic Link", .str (str "e")), (str "ModuleName", .str (str "m"))]]

/-- C8: when at least one required logical field is unresolved, the upload
produces exactly one failure report enumerating every unresolved field's
display name, keeps the raw records, and produces no task collection; a file
missing only the Status column names exactly Status. -/
theorem claim_C8_missing_columns :
    (∀ rows : List RawRow, rows ≠ [] → missingOf rows ≠ [] →
       uploadOutcome rows =
         ⟨str "Thiếu cột bắt buộc: " ++ joinWith (str ", ") (missingOf rows), rows, []⟩)
  ∧ (∀ rows f, displayName f ∈ missingOf rows ↔ resolvedCol rows f = [])
  ∧ missingOf c8Rows = [str "Status"]
  ∧ uploadOutcome c8Rows = ⟨str "Thiếu cột bắt buộc: Status", c8Rows, []⟩ := by
  refine ⟨?_, mem_missingOf, by decide, by decide⟩
  intro rows hr hm
  unfold uploadOutcome
  rw [if_neg hr, if_pos hm]

/-- Witness for C8 at the concrete upload missing only Status. -/
theorem claim_C8_missing_columns_witness :
    uploadOutcome c8Rows =
      ⟨str "Thiếu cột bắt buộc: " ++ joinWith (str ", ") (missingOf c8Rows), c8Rows, []⟩ :=
  claim_C8_missing_columns.1 c8Rows (by decide) (by decide)

theorem matchMarkdown_label_ne (cs : Str) (l u : Str) (h : matchMarkdown cs = some (l, u)) :
    l ≠ [] := by
  unfold matchMarkdown at h
  dsimp only at h
  split at h
  · split at h
    · split at h
      · exact absurd h (by simp)
      · split at h
        · split at h
          · exact absurd h (by simp)
          · split at h
            · intro hl
              cases h
              simp_all
            · exact absurd h (by simp)
        · exact absurd h (by simp)
    · exact absurd h (by simp)
  · exact absurd h (by simp)

theorem matchKeyAt_ne (cs k : Str) (h : matchKeyAt cs = some k) : k ≠ [] := by
  unfold matchKeyAt at h
  dsimp only at h
  split at h
  · exact absurd h (by simp)
  · split at h
    · split at h
      · split at h
        · exact absurd h (by simp)
        · intro hk
          cases h
          simp_all
      · exact absurd h (by simp)
    · exact absurd h (by simp)

theorem firstKey_ne (cs k : Str) (h : firstKey cs = some k) : k ≠ [] := by
  induction cs with
  | nil => exact absurd h (by simp [firstKey])
  | cons c rest ih =>
      unfold firstKey at h
      split at h
      · cases h
        exact matchKeyAt_ne _ _ (by assumption)
      · exact ih h

theorem jsOr_ne (a b : Str) (hb : b ≠ []) : jsOr a b ≠ [] := by
  unfold jsOr
  split
  · exact hb
  · assumption

theorem parseTaskKeyCell_taskId_ne (v : Option CellValue) :
    (parseTaskKeyCell v).taskId ≠ [] := by
  unfold parseTaskKeyCell
  dsimp only
  split
  · exact matchMarkdown_label_ne _ _ _ (by assumption)
  · split
    · show List.map Char.toUpper (jsOr _ _) ≠ []
      rw [Ne, List.map_eq_nil_iff]
      have hraw : jsTrim (jsStringOfCell v) ≠ [] := by
        intro he
        simp_all [firstUrl]
      exact jsOr_ne _ _ (jsOr_ne _ _ hraw)
    · split
      · show List.map Char.toUpper _ ≠ []
        rw [Ne, List.map_eq_nil_iff]
        exact firstKey_ne _ _ (by assumption)
      · exact jsOr_ne _ _ (by decide)

def c1Rows : List RawRow :=
  [[(str "Key", .str []), (str "Issue Type", .str (str "Task")),
    (str "Assignee", .str (str "u")), (str "Story Points", .str (str "3")),
    (str "Summary", .str (str "N")), (str "Labels", .str (str "W01")),
    (str "Epic Link", .str (str "e")), (str "ModuleName", .str (str "M")),
    (str "Status", .str (str "Open"))]]

def c1Task : Task := normalizeRow (colsOf c1Rows) c1Rows.headI

/-- C1 counterexample: for a raw row whose source key cell is blank, the
derived task's grouping identity key is the placeholder "-", not the
(module, name) composite, because the parsed taskId is never empty. -/
theorem claim_C1_counterexample_blank_key :
    rowGet c1Rows.headI (colsOf c1Rows).taskId = some (CellValue.str [])
  ∧ c1Task.module = str "M"
  ∧ c1Task.name = str "N"
  ∧ c1Task.taskId = str "-"
  ∧ taskKeyOf c1Task = str "-"
  ∧ decide (taskKeyOf c1Task = c1Task.module ++ str "||" ++ c1Task.name) = false := by
  decide

/-- C1 amended: the parsed taskId of every row is nonempty (a blank key cell
yields the placeholder "-"), so the grouping identity key used by the merging
views equals the taskId in every case, and the (module, name) composite
fallback never applies. -/
theorem claim_C1_identity_key_is_taskId :
    (∀ v, 0 < (parseTaskKeyCell v).taskId.length)
  ∧ (∀ cols row, taskKeyOf (normalizeRow cols row) = (normalizeRow cols row).taskId)
  ∧ (∀ t : Task, 0 < t.taskId.length → taskKeyOf t = t.taskId) := by
  have hne : ∀ t : Task, 0 < t.taskId.length → taskKeyOf t = t.taskId := by
    intro t ht
    unfold taskKeyOf jsOr
    rw [if_neg (by intro he; rw [he] at ht; exact absurd ht (by decide))]
  refine ⟨?_, ?_, hne⟩
  · intro v
    have := parseTaskKeyCell_taskId_ne v
    cases hk : (parseTaskKeyCell v).taskId
    · exact absurd hk this
    · simp
  · intro cols row
    refine hne _ ?_
    show 0 < (parseTaskKeyCell (rowGet row cols.taskId)).taskId.length
    have := parseTaskKeyCell_taskId_ne (rowGet row cols.taskId)
    cases hk : (parseTaskKeyCell (rowGet row cols.taskId)).taskId
    · exact absurd hk this
    · simp

/-- Witness for C1 at a concrete task with a real key. -/
theorem claim_C1_identity_key_is_taskId_witness :
    taskKeyOf c3DoneTask = c3DoneTask.taskId :=
  claim_C1_identity_key_is_taskId.2.2 c3DoneTask (by decide)

theorem spanGo_mem (mc ac : List (Str × ℕ)) (prevW : Str) (l : List (Task × Bool))
    (seenM seenA : List Str) (r : PRow) (hr : r ∈ spanGo mc ac prevW seenM seenA l) :
    ∃ tw ∈ l, r.prevDoneStillAppear = tw.2 ∧ r.taskKey = taskKeyOf tw.1 ∧
      r.module = tw.1.module ∧ r.assignee = tw.1.assignee ∧
      r.moduleRowSpan = (alGet mc tw.1.module).getD 1 ∧
      r.assigneeRowSpan = (alGet ac (assigneeKeyOf tw.1.module tw.1.assignee)).getD 1 := by
  induction l generalizing seenM seenA with
  | nil => exact absurd hr (by simp [spanGo])
  | cons tw0 rest ih =>
      obtain ⟨t, warn⟩ := tw0
      rw [show spanGo mc ac prevW seenM seenA ((t, warn) :: rest) = _ :: _ from rfl,
        List.mem_cons] at hr
      rcases hr with he | hm
      · subst he
        exact ⟨(t, warn), List.mem_cons_self _ _, rfl, rfl, rfl, rfl, rfl, rfl⟩
      · obtain ⟨tw, htw, hrest⟩ := ih _ _ hm
        exact ⟨tw, List.mem_cons_of_mem _ htw, hrest⟩

def c2TasksU : List Task :=
  [mkTask "AB-1" "M" "u" "t" ["W1"] .done, mkTask "AB-1" "M" "u" "t" ["W2"] .open_]

/-- C2 counterexample: with data labelled with the unpadded codes W1 and W2
and the explicit selection W2, the merged map records done for the week
numbered 1 and the surviving task carries the selected label, yet the
staleness warning is false, because the lookup uses only the zero-padded
spelling W01. -/
theorem claim_C2_counterexample_unpadded_week :
    (projectRows c2TasksU (str "W2") (str "all") (str "all")).map PRow.prevDoneStillAppear
      = [false]
  ∧ (projectRows c2TasksU (str "W2") (str "all") (str "all")).map PRow.taskKey = [str "AB-1"]
  ∧ statusMapLookup c2TasksU (str "AB-1") (str "W1") = some Status.done
  ∧ weekIndex (str "W1") + 1 = weekIndex (str "W2")
  ∧ previousWeek (str "W2") = str "W01" := by
  decide

/-- C2 amended: in the grouped listing, a surviving row's staleness warning is
true exactly when an explicit week is selected, the preceding-week code is
defined, and the merged per-identity map records done at exactly the
zero-padded code previousWeek(selection); a done status recorded under
another spelling of the same week number is not detected. -/
theorem claim_C2_staleness_warning :
    ∀ (tasks : List Task) (wF mF aF : Str) (r : PRow), r ∈ projectRows tasks wF mF aF →
      (r.prevDoneStillAppear = true ↔
        (wF ≠ str "all" ∧ previousWeek wF ≠ [] ∧
          statusMapLookup tasks r.taskKey (previousWeek wF) = some Status.done)) := by
  intro tasks wF mF aF r hr
  unfold projectRows at hr
  obtain ⟨tw, htw, hwarn, hkey, -, -, -, -⟩ := spanGo_mem _ _ _ _ _ _ r hr
  have htw2 : tw ∈ withWarn tasks wF mF aF :=
    (List.perm_insertionSort projectRowLe _).subset htw
  obtain ⟨t, -, he⟩ := List.mem_map.mp htw2
  have hw : r.prevDoneStillAppear =
      decide (prevWeekOf wF ≠ [] ∧
        lookup2 (buildStatusMap tasks) (taskKeyOf t) (prevWeekOf wF) = some .done) := by
    rw [hwarn, ← he]
  have hk : r.taskKey = taskKeyOf t := by rw [hkey, ← he]
  by_cases hall : wF = str "all"
  · subst hall
    rw [show prevWeekOf (str "all") = [] from if_neg (by simp)] at hw
    simp only [ne_eq, not_true_eq_false, false_and, decide_False] at hw
    rw [hw]
    simp
  · rw [show prevWeekOf wF = previousWeek wF from if_pos hall] at hw
    rw [hw, hk]
    simp only [decide_eq_true_eq]
    constructor
    · exact fun hp => ⟨hall, hp.1, hp.2⟩
    · exact fun hp => ⟨hp.2.1, hp.2.2⟩

def c2TasksP : List Task :=
  [mkTask "AB-1" "M" "u" "t" ["W01"] .done, mkTask "AB-1" "M" "u" "t" ["W02"] .open_]

def c2Row : PRow :=
  ⟨str "M", str "u", str "AB-1", str "AB-1", [], str "Task", str "t", str "-", .open_, 1,
   str "W02", true, str "W01", true, true, 1, 1⟩

/-- Witness for C2 at a concrete listing where the warning fires. -/
theorem claim_C2_staleness_warning_witness :
    c2Row.prevDoneStillAppear = true ↔
      (str "W02" ≠ str "all" ∧ previousWeek (str "W02") ≠ [] ∧
        statusMapLookup c2TasksP c2Row.taskKey (previousWeek (str "W02")) = some Status.done) :=
  claim_C2_staleness_warning c2TasksP (str "W02") (str "all") (str "all") c2Row (by decide)

theorem alSet_cons_eq {β : Type} (k0 : Str) (v0 : β) (rest : List (Str × β)) (k : Str) (v : β)
    (h : k0 = k) : alSet ((k0, v0) :: rest) k v = (k, v) :: rest := by
  simp [alSet, h]

theorem alSet_cons_ne {β : Type} (k0 : Str) (v0 : β) (rest : List (Str × β)) (k : Str) (v : β)
    (h : ¬ k0 = k) : alSet ((k0, v0) :: rest) k v = (k0, v0) :: alSet rest k v := by
  simp [alSet, h]

theorem keys_alSet_mem {β : Type} (m : List (Str × β)) (k : Str) (v : β) (x : Str) :
    x ∈ (alSet m k v).map Prod.fst ↔ x ∈ m.map Prod.fst ∨ x = k := by
  induction m with
  | nil => simp [alSet]
  | cons p rest ih =>
      obtain ⟨k0, v0⟩ := p
      by_cases hp : k0 = k
      · subst hp
        rw [alSet_cons_eq _ _ _ _ _ rfl]
        simp only [List.map_cons, List.mem_cons]
        constructor
        · rintro (he | hm)
          · exact Or.inr he
          · exact Or.inl (Or.inr hm)
        · rintro ((he | hm) | he)
          · exact Or.inl he
          · exact Or.inr hm
          · exact Or.inl he
      · rw [alSet_cons_ne _ _ _ _ _ hp]
        simp only [List.map_cons, List.mem_cons, ih]
        constructor
        · rintro (he | hm | he)
          · exact Or.inl (Or.inl he)
          · exact Or.inl (Or.inr hm)
          · exact Or.inr he
        · rintro ((he | hm) | he)
          · exact Or.inl he
          · exact Or.inr (Or.inl hm)
          · exact Or.inr (Or.inr he)

theorem nodupKeys_alSet {β : Type} (m : List (Str × β)) (k : Str) (v : β)
    (h : (m.map Prod.fst).Nodup) : ((alSet m k v).map Prod.fst).Nodup := by
  induction m with
  | nil => simp [alSet]
  | cons p rest ih =>
      obtain ⟨k0, v0⟩ := p
      rw [List.map_cons, List.nodup_cons] at h
      by_cases hp : k0 = k
      · subst hp
        rw [alSet_cons_eq _ _ _ _ _ rfl]
        simp only [List.map_cons, List.nodup_cons]
        exact h
      · rw [alSet_cons_ne _ _ _ _ _ hp]
        simp only [List.map_cons, List.nodup_cons]
        refine ⟨fun hmem => ?_, ih h.2⟩
        rcases (keys_alSet_mem rest k v k0).mp hmem with hm | he
        · exact h.1 hm
        · exact hp he

theorem alGet_eq_some_of_mem {β : Type} (m : List (Str × β)) (k : Str) (v : β)
    (hn : (m.map Prod.fst).Nodup) (hm : (k, v) ∈ m) : alGet m k = some v := by
  induction m with
  | nil => exact absurd hm (by simp)
  | cons p rest ih =>
      obtain ⟨k0, v0⟩ := p
      rw [List.map_cons, List.nodup_cons] at hn
      rcases List.mem_cons.mp hm with he | hmem
      · cases he
        simp [alGet_cons]
      · rw [alGet_cons]
        have hk : k0 ≠ k := by
          intro he
          subst he
          exact hn.1 (List.mem_map.mpr ⟨(k0, v), hmem, rfl⟩)
        rw [if_neg hk]
        exact ih hn.2 hmem

theorem mem_of_alGet_eq_some {β : Type} (m : List (Str × β)) (k : Str) (v : β)
    (h : alGet m k = some v) : (k, v) ∈ m := by
  induction m with
  | nil => exact absurd h (by simp [alGet])
  | cons p rest ih =>
      obtain ⟨k0, v0⟩ := p
      rw [alGet_cons] at h
      by_cases hp : k0 = k
      · subst hp
        rw [if_pos rfl] at h
        cases h
        exact List.mem_cons_self _ _
      · rw [if_neg hp] at h
        exact List.mem_cons_of_mem _ (ih h)

theorem nodupKeys_cmpStep (m : List (Str × CEntry)) (t : Task)
    (h : (m.map Prod.fst).Nodup) : ((cmpStep m t).map Prod.fst).Nodup := by
  unfold cmpStep
  exact nodupKeys_alSet _ _ _ h

theorem nodupKeys_cmpFold (tasks : List Task) :
    ((cmpFold tasks).map Prod.fst).Nodup := by
  induction tasks using List.reverseRecOn with
  | nil => simp [cmpFold]
  | append_singleton l t ih =>
      unfold cmpFold at *
      rw [List.foldl_append, List.foldl_cons, List.foldl_nil]
      exact nodupKeys_cmpStep _ _ ih

theorem cmpStep_statusByWeek (m : List (Str × CEntry))
    (M : List (Str × List (Str × Status))) (t : Task)
    (h : ∀ k, (alGet m k).map CEntry.statusByWeek = alGet M k) (k : Str) :
    (alGet (cmpStep m t) k).map CEntry.statusByWeek = alGet (buildStep M t) k := by
  unfold cmpStep buildStep
  dsimp only
  by_cases hk : taskKeyOf t = k
  · subst hk
    rw [alGet_alSet_self, alGet_alSet_self]
    have h0 := h (taskKeyOf t)
    cases halm : alGet m (taskKeyOf t) with
    | none =>
        rw [halm] at h0
        rw [← h0]
        rfl
    | some e =>
        rw [halm] at h0
        rw [← h0]
        rfl
  · have hne : k ≠ taskKeyOf t := fun he => hk he.symm
    rw [alGet_alSet_ne _ _ _ _ hne, alGet_alSet_ne _ _ _ _ hne]
    exact h k

theorem cmpFold_statusByWeek (tasks : List Task) (k : Str) :
    (alGet (cmpFold tasks) k).map CEntry.statusByWeek = alGet (buildStatusMap tasks) k := by
  suffices h : ∀ (m : List (Str × CEntry)) (M : List (Str × List (Str × Status))),
      (∀ k', (alGet m k').map CEntry.statusByWeek = alGet M k') →
      ∀ k', (alGet (tasks.foldl cmpStep m) k').map CEntry.statusByWeek =
        alGet (tasks.foldl buildStep M) k' by
    exact h [] [] (fun _ => rfl) k
  induction tasks with
  | nil => exact fun m M h k' => h k'
  | cons t rest ih =>
      intro m M h k'
      rw [List.foldl_cons, List.foldl_cons]
      exact ih _ _ (cmpStep_statusByWeek m M t h) k'

theorem cmpStep_isSome (m : List (Str × CEntry)) (t : Task) (k : Str) :
    (alGet (cmpStep m t) k).isSome = ((alGet m k).isSome ∨ taskKeyOf t = k : Prop) := by
  unfold cmpStep
  dsimp only
  by_cases hk : taskKeyOf t = k
  · subst hk
    rw [alGet_alSet_self]
    simp
  · rw [alGet_alSet_ne _ _ _ _ (fun he => hk he.symm)]
    simp [hk]

theorem cmpFold_isSome_iff (tasks : List Task) (k : Str) :
    (alGet (cmpFold tasks) k).isSome ↔ ∃ t ∈ tasks, taskKeyOf t = k := by
  suffices h : ∀ (m : List (Str × CEntry)),
      ((alGet (tasks.foldl cmpStep m) k).isSome ↔
        ((alGet m k).isSome ∨ ∃ t ∈ tasks, taskKeyOf t = k)) by
    rw [cmpFold, h []]
    simp [alGet]
  induction tasks with
  | nil => simp
  | cons t rest ih =>
      intro m
      rw [List.foldl_cons, ih (cmpStep m t)]
      rw [show ((alGet (cmpStep m t) k).isSome = true) ↔
          ((alGet m k).isSome ∨ taskKeyOf t = k) by
        constructor
        · intro hx
          exact (cmpStep_isSome m t k) ▸ hx
        · intro hx
          exact (cmpStep_isSome m t k) ▸ hx]
      constructor
      · rintro (((hx | hx) | hx))
        · exact Or.inl hx
        · exact Or.inr ⟨t, List.mem_cons_self _ _, hx⟩
        · obtain ⟨t', ht', he⟩ := hx
          exact Or.inr ⟨t', List.mem_cons_of_mem _ ht', he⟩
      · rintro (hx | ⟨t', ht', he⟩)
        · exact Or.inl (Or.inl hx)
        · rcases List.mem_cons.mp ht' with hh | hm
          · exact Or.inl (Or.inr (hh ▸ he))
          · exact Or.inr ⟨t', hm, he⟩

theorem compareRows_mem_spec (tasks : List Task) (A B : Str) (r : CRow)
    (hr : r ∈ compareRows tasks A B) :
    r.statusA = statusMapLookup tasks r.taskKey A ∧
    r.statusB = statusMapLookup tasks r.taskKey B ∧
    (r.statusA ≠ none ∨ r.statusB ≠ none) ∧
    (r.invalidDoneBoth = true ↔ (r.statusA = some .done ∧ r.statusB = some .done)) := by
  unfold compareRows at hr
  by_cases h : A = [] ∨ B = []
  · rw [if_pos h] at hr
    exact absurd hr (by simp)
  · rw [if_neg h] at hr
    have hr2 := (List.perm_insertionSort crowLe _).subset hr
    obtain ⟨hmap, hpred⟩ := List.mem_filter.mp hr2
    obtain ⟨p, hp, he⟩ := List.mem_map.mp hmap
    have hget : alGet (cmpFold tasks) p.1 = some p.2 :=
      alGet_eq_some_of_mem _ _ _ (nodupKeys_cmpFold tasks) (by
        obtain ⟨k, e⟩ := p
        exact hp)
    have hbsm : alGet (buildStatusMap tasks) p.1 = some p.2.statusByWeek := by
      rw [← cmpFold_statusByWeek, hget]
      rfl
    have hA : statusMapLookup tasks p.1 A = alGet p.2.statusByWeek A := by
      unfold statusMapLookup lookup2
      rw [hbsm]
      rfl
    have hB : statusMapLookup tasks p.1 B = alGet p.2.statusByWeek B := by
      unfold statusMapLookup lookup2
      rw [hbsm]
      rfl
    subst he
    refine ⟨?_, ?_, ?_, by simp [cmpRowOf]⟩
    · show alGet p.2.statusByWeek A = statusMapLookup tasks p.1 A
      rw [hA]
    · show alGet p.2.statusByWeek B = statusMapLookup tasks p.1 B
      rw [hB]
    · have := of_decide_eq_true hpred
      simpa using this

/-- C4: when both comparison weeks are set, a task appears in the comparison
output exactly when its merged status map has an entry for week A or week B;
every emitted row reports the merged statuses of its identity key, a row done
in both weeks has invalidDoneBoth; and the view is empty when either week is
unset. -/
theorem claim_C4_two_week_comparison :
    ∀ (tasks : List Task) (A B : Str),
      ((A = [] ∨ B = []) → compareRows tasks A B = [])
    ∧ (∀ r ∈ compareRows tasks A B,
         r.statusA = statusMapLookup tasks r.taskKey A ∧
         r.statusB = statusMapLookup tasks r.taskKey B ∧
         (r.statusA ≠ none ∨ r.statusB ≠ none) ∧
         (r.invalidDoneBoth = true ↔ (r.statusA = some .done ∧ r.statusB = some .done)))
    ∧ (0 < A.length → 0 < B.length →
        ∀ k, ((∃ r ∈ compareRows tasks A B, r.taskKey = k) ↔
          ((statusMapLookup tasks k A).isSome ∨ (statusMapLookup tasks k B).isSome))) := by
  intro tasks A B
  refine ⟨?_, fun r hr => compareRows_mem_spec tasks A B r hr, ?_⟩
  · intro h
    unfold compareRows
    rw [if_pos h]
  · intro hA hB k
    constructor
    · rintro ⟨r, hr, rfl⟩
      obtain ⟨hsa, hsb, hne, -⟩ := compareRows_mem_spec tasks A B r hr
      rcases hne with hx | hx
      · exact Or.inl (by rw [← hsa]; exact Option.ne_none_iff_isSome.mp hx)
      · exact Or.inr (by rw [← hsb]; exact Option.ne_none_iff_isSome.mp hx)
    · intro h
      have hAne : ¬ (A = [] ∨ B = []) := by
        rintro (he | he) <;> subst he <;> simp_all
      have hbsm : ∃ inner, alGet (buildStatusMap tasks) k = some inner ∧
          ((alGet inner A).isSome ∨ (alGet inner B).isSome) := by
        rcases h with hx | hx
        · unfold statusMapLookup lookup2 at hx
          cases hb : alGet (buildStatusMap tasks) k with
          | none => rw [hb] at hx; exact absurd hx (by simp [alGet])
          | some inner => exact ⟨inner, rfl, Or.inl (by rw [hb] at hx; exact hx)⟩
        · unfold statusMapLookup lookup2 at hx
          cases hb : alGet (buildStatusMap tasks) k with
          | none => rw [hb] at hx; exact absurd hx (by simp [alGet])
          | some inner => exact ⟨inner, rfl, Or.inr (by rw [hb] at hx; exact hx)⟩
      obtain ⟨inner, hb, hsome⟩ := hbsm
      have hcf : ∃ e : CEntry, alGet (cmpFold tasks) k = some e ∧ e.statusByWeek = inner := by
        have := cmpFold_statusByWeek tasks k
        rw [hb] at this
        cases hc : alGet (cmpFold tasks) k with
        | none => rw [hc] at this; exact absurd this (by simp)
        | some e =>
            rw [hc] at this
            exact ⟨e, rfl, by simpa using this⟩
      obtain ⟨e, hc, hei⟩ := hcf
      refine ⟨cmpRowOf A B (k, e), ?_, rfl⟩
      unfold compareRows
      rw [if_neg hAne]
      refine (List.perm_insertionSort crowLe _).symm.subset ?_
      refine List.mem_filter.mpr ⟨List.mem_map.mpr ⟨(k, e), mem_of_alGet_eq_some _ _ _ hc, rfl⟩, ?_⟩
      simp only [cmpRowOf, decide_eq_true_eq]
      rcases hsome with hx | hx
      · exact Or.inl (by rw [hei]; exact Option.ne_none_iff_isSome.mpr hx)
      · exact Or.inr (by rw [hei]; exact Option.ne_none_iff_isSome.mpr hx)

/-- Witness for C4 at a concrete comparison. -/
theorem claim_C4_two_week_comparison_witness :
    (∃ r ∈ compareRows c2TasksP (str "W01") (str "W02"), r.taskKey = str "AB-1") ↔
      ((statusMapLookup c2TasksP (str "AB-1") (str "W01")).isSome ∨
        (statusMapLookup c2TasksP (str "AB-1") (str "W02")).isSome) :=
  (claim_C4_two_week_comparison c2TasksP (str "W01") (str "W02")).2.2 (by decide) (by decide)
    (str "AB-1")

/-- One serialized line: comma-joined escaped fields. -/
def lineOf (r : List Str) : Str := joinWith [','] (r.map escapeCsv)

/-- The whole serialized report: newline-joined lines. -/
def csvText (lines : List (List Str)) : Str := joinWith ['\n'] (lines.map lineOf)

theorem toCsv_eq_csvText (headers : List Str) (rows : List (List Str)) :
    toCsv headers rows = csvText (headers :: rows) := rfl

theorem split_run (p : Char → Bool) (s rest : Str) (hs : ∀ c ∈ s, p c = true)
    (hr : rest = [] ∨ ∃ c r', rest = c :: r' ∧ p c = false) :
    (s ++ rest).takeWhile p = s := by
  induction s with
  | nil =>
      rcases hr with he | ⟨c, r', he, hp⟩
      · simp [he]
      · simp [he, List.takeWhile_cons, hp]
  | cons c cs ih =>
      have hc : p c = true := hs c (List.mem_cons_self c cs)
      rw [List.cons_append, List.takeWhile_cons, hc]
      simp only [if_true]
      rw [ih (fun x hx => hs x (List.mem_cons_of_mem c hx))]

theorem needsQuote_false_mem (s : Str) (hq : needsQuote s = false) :
    ∀ c ∈ s, c ≠ ',' ∧ c ≠ '\n' ∧ c ≠ '"' := by
  intro c hc
  unfold needsQuote at hq
  rw [List.any_eq_false] at hq
  have := hq c hc
  simp only [decide_eq_true_eq] at this
  push_neg at this
  exact this

theorem readField_of_unquoted (s rest : Str) (hq : needsQuote s = false)
    (hrest : rest = [] ∨ rest.head? = some ',' ∨ rest.head? = some '\n') :
    readField (s ++ rest) = (s, rest) := by
  have hmem := needsQuote_false_mem s hq
  have htake : (s ++ rest).takeWhile (fun c => c ≠ ',' ∧ c ≠ '\n') = s := by
    apply split_run
    · intro c hc
      simp [(hmem c hc).1, (hmem c hc).2.1]
    · rcases hrest with he | he | he
      · exact Or.inl he
      · cases rest with
        | nil => exact Or.inl rfl
        | cons c r' =>
            refine Or.inr ⟨c, r', rfl, ?_⟩
            simp only [List.head?_cons, Option.some_inj] at he
            simp [he]
      · cases rest with
        | nil => exact Or.inl rfl
        | cons c r' =>
            refine Or.inr ⟨c, r', rfl, ?_⟩
            simp only [List.head?_cons, Option.some_inj] at he
            simp [he]
  have hfield : readField (s ++ rest) =
      ((s ++ rest).takeWhile (fun c => c ≠ ',' ∧ c ≠ '\n'),
       (s ++ rest).drop (((s ++ rest).takeWhile (fun c => c ≠ ',' ∧ c ≠ '\n')).length)) := by
    unfold readField
    split
    · rename_i rest' heq
      exfalso
      cases s with
      | nil =>
          rcases hrest with he | he | he
          · rw [he] at heq
            cases heq
          · rw [show ([] : Str) ++ rest = rest from rfl] at heq
            rw [heq] at he
            simp at he
          · rw [show ([] : Str) ++ rest = rest from rfl] at heq
            rw [heq] at he
            simp at he
      | cons c cs =>
          have : c = '"' := by
            have := congrArg List.head? heq
            simpa using this
          exact ((hmem c (List.mem_cons_self c cs)).2.2) this
    · rfl
  rw [hfield, htake, List.drop_left]

theorem readQuoted_dup (s rest : Str) (hrest : rest.head? ≠ some '"') :
    readQuoted (dupQuotes s ++ '"' :: rest) = (s, rest) := by
  induction s with
  | nil =>
      show readQuoted ('"' :: rest) = ([], rest)
      unfold readQuoted
      rw [if_pos rfl]
      cases rest with
      | nil => rfl
      | cons c2 r2 =>
          have hc2 : ¬ c2 = '"' := by
            intro he
            exact hrest (by simp [he])
          dsimp only
          rw [if_neg hc2]
  | cons c cs ih =>
      by_cases hc : c = '"'
      · subst hc
        show readQuoted ('"' :: '"' :: (dupQuotes cs ++ '"' :: rest)) = _
        unfold readQuoted
        rw [if_pos rfl]
        dsimp only
        rw [if_pos rfl, ih]
      · rw [show dupQuotes (c :: cs) = c :: dupQuotes cs by simp [dupQuotes, hc]]
        show readQuoted (c :: (dupQuotes cs ++ '"' :: rest)) = _
        unfold readQuoted
        rw [if_neg hc]
        dsimp only
        rw [ih]

theorem readField_escape (s rest : Str)
    (hrest : rest = [] ∨ rest.head? = some ',' ∨ rest.head? = some '\n') :
    readField (escapeCsv s ++ rest) = (s, rest) := by
  by_cases hq : needsQuote s = true
  · rw [show escapeCsv s = '"' :: (dupQuotes s ++ ['"']) by simp [escapeCsv, hq]]
    rw [show ('"' :: (dupQuotes s ++ ['"'])) ++ rest = '"' :: (dupQuotes s ++ '"' :: rest) by
      simp]
    rw [show readField ('"' :: (dupQuotes s ++ '"' :: rest)) =
        readQuoted (dupQuotes s ++ '"' :: rest) from rfl]
    apply readQuoted_dup
    rcases hrest with he | he | he
    · simp [he]
    · rw [he]
      decide
    · rw [he]
      decide
  · rw [show escapeCsv s = s by simp [escapeCsv, hq]]
    exact readField_of_unquoted s rest (by simpa using hq) hrest

/-- The remainder after a leading newline, if any. -/
def newlineTail (rest : Str) : Option Str :=
  match rest with
  | '\n' :: r => some r
  | _ => none

theorem readRecordF_line : ∀ (fields : List Str) (rest : Str) (fuel : ℕ),
    fields ≠ [] → fields.length ≤ fuel →
    (rest = [] ∨ rest.head? = some '\n') →
    readRecordF fuel (lineOf fields ++ rest) = (fields, newlineTail rest) := by
  intro fields
  induction fields with
  | nil => exact fun rest fuel hne => absurd rfl hne
  | cons f fs ih =>
      intro rest fuel hne hfuel hrest
      cases fuel with
      | zero => exact absurd hfuel (by simp)
      | succ fuel =>
          cases fs with
          | nil =>
              rw [show lineOf [f] = escapeCsv f from rfl]
              unfold readRecordF
              rw [readField_escape f rest (by
                rcases hrest with he | he
                · exact Or.inl he
                · exact Or.inr (Or.inr he))]
              dsimp only
              rcases hrest with he | he
              · subst he
                rfl
              · cases rest with
                | nil => rfl
                | cons c r =>
                    simp only [List.head?_cons, Option.some_inj] at he
                    subst he
                    rfl
          | cons f2 fs2 =>
              rw [show lineOf (f :: f2 :: fs2) =
                  escapeCsv f ++ [','] ++ lineOf (f2 :: fs2) from rfl]
              simp only [List.append_assoc, List.cons_append, List.nil_append]
              unfold readRecordF
              rw [readField_escape f (',' :: (lineOf (f2 :: fs2) ++ rest)) (by simp)]
              show (f :: (readRecordF fuel (lineOf (f2 :: fs2) ++ rest)).1,
                  (readRecordF fuel (lineOf (f2 :: fs2) ++ rest)).2) = _
              rw [ih rest fuel (by simp) (by simpa using Nat.le_of_succ_le_succ hfuel) hrest]

theorem length_joinWith_single (c : Char) (xs : List Str) :
    xs.length ≤ (joinWith [c] xs).length + 1 := by
  induction xs with
  | nil => simp
  | cons x ys ih =>
      cases ys with
      | nil => simp [joinWith]
      | cons y ys' =>
          rw [show joinWith [c] (x :: y :: ys') = x ++ [c] ++ joinWith [c] (y :: ys') from rfl]
          simp only [List.length_cons, List.length_append, List.length_singleton] at ih ⊢
          omega

theorem readLinesF_text : ∀ (lines : List (List Str)) (fuel : ℕ),
    lines ≠ [] → (∀ r ∈ lines, r ≠ []) →
    (csvText lines).length + 1 ≤ fuel →
    readLinesF fuel (csvText lines) = lines := by
  intro lines
  induction lines with
  | nil => exact fun fuel hne => absurd rfl hne
  | cons l ls ih =>
      intro fuel hne hall hfuel
      cases fuel with
      | zero => exact absurd hfuel (by simp)
      | succ fuel =>
          have hlf : l.length ≤ fuel + 1 := by
            have h1 : l.length ≤ (lineOf l).length + 1 := by
              have := length_joinWith_single ',' (l.map escapeCsv)
              simpa [lineOf] using this
            have h2 : (lineOf l).length ≤ (csvText (l :: ls)).length := by
              cases ls with
              | nil => simp [csvText, joinWith]
              | cons l2 ls2 =>
                  rw [show csvText (l :: l2 :: ls2) =
                      lineOf l ++ ['\n'] ++ csvText (l2 :: ls2) from rfl]
                  simp
            omega
          cases ls with
          | nil =>
              rw [show csvText [l] = lineOf l from rfl]
              unfold readLinesF
              rw [show lineOf l = lineOf l ++ [] by simp]
              rw [readRecordF_line l [] (fuel + 1) (hall l (by simp)) (by simpa using hlf)
                (Or.inl rfl)]
              rfl
          | cons l2 ls2 =>
              have htext : csvText (l :: l2 :: ls2) =
                  lineOf l ++ ('\n' :: csvText (l2 :: ls2)) := by
                rw [show csvText (l :: l2 :: ls2) =
                    lineOf l ++ ['\n'] ++ csvText (l2 :: ls2) from rfl]
                simp
              rw [htext]
              unfold readLinesF
              rw [readRecordF_line l ('\n' :: csvText (l2 :: ls2)) (fuel + 1)
                (hall l (by simp)) (by simpa using hlf) (Or.inr rfl)]
              show l :: readLinesF fuel (csvText (l2 :: ls2)) = l :: l2 :: ls2
              rw [ih fuel (by simp) (fun r hr => hall r (List.mem_cons_of_mem l hr)) (by
                have hlen : (csvText (l :: l2 :: ls2)).length =
                    (lineOf l).length + 1 + (csvText (l2 :: ls2)).length := by
                  rw [htext]
                  simp
                  omega
                omega)]

/-- Bool test that a string is wrapped in double quotes. -/
def isWrappedQuote (t : Str) : Bool :=
  match t with
  | '"' :: rest => rest ≠ [] ∧ rest.getLast? = some '"'
  | _ => false

def c7EmptyRowCsv : Str := toCsv [str "h"] [[]]

/-- C7 counterexample: a data row with zero cells serializes to an empty line,
which re-splits as a row with one empty cell, so the round trip does not
recover the original rows at this input. -/
theorem claim_C7_counterexample_empty_row :
    c7EmptyRowCsv = str "h" ++ ['\n']
  ∧ parseCsv c7EmptyRowCsv = [[str "h"], [[]]]
  ∧ decide (parseCsv c7EmptyRowCsv = [str "h"] :: [([] : List Str)]) = false := by
  decide

/-- C7 amended: when the header row and every data row have at least one
field, serializing with the report serializer and re-splitting under the same
escaping rule recovers the original header and cell values exactly; and a
field of the output is quote-wrapped with internal quotes doubled if and only
if its value contains a comma, a newline, or a double quote. -/
theorem claim_C7_csv_round_trip :
    (∀ (headers : List Str) (rows : List (List Str)), headers ≠ [] →
       (∀ r ∈ rows, r ≠ []) → parseCsv (toCsv headers rows) = headers :: rows)
  ∧ (∀ s, isWrappedQuote (escapeCsv s) = needsQuote s)
  ∧ (∀ s, needsQuote s = true → escapeCsv s = '"' :: dupQuotes s ++ ['"'])
  ∧ (∀ s, needsQuote s = false → escapeCsv s = s) := by
  refine ⟨?_, ?_, ?_, ?_⟩
  · intro headers rows hh hr
    rw [toCsv_eq_csvText]
    unfold parseCsv
    exact readLinesF_text (headers :: rows) _ (by simp)
      (fun r hmem => by
        rcases List.mem_cons.mp hmem with he | hm
        · exact he ▸ hh
        · exact hr r hm)
      (le_refl _)
  · intro s
    by_cases hq : needsQuote s = true
    · rw [hq, show escapeCsv s = '"' :: (dupQuotes s ++ ['"']) by simp [escapeCsv, hq]]
      unfold isWrappedQuote
      simp
    · rw [show escapeCsv s = s by simp [escapeCsv, hq]]
      rw [Bool.not_eq_true] at hq
      rw [hq]
      cases s with
      | nil => rfl
      | cons c cs =>
          have hc : c ≠ '"' := ((needsQuote_false_mem _ hq) c (List.mem_cons_self c cs)).2.2
          unfold isWrappedQuote
          split
          · rename_i heq
            exfalso
            exact hc (by cases heq; rfl)
          · rfl
  · intro s hq
    simp [escapeCsv, hq]
  · intro s hq
    simp [escapeCsv, hq]

/-- Witness for C7 at a concrete report containing a comma value and an
embedded-quote value. -/
theorem claim_C7_csv_round_trip_witness :
    parseCsv (toCsv [str "h1", str "h2"] [[str "a,b", str "c\"d"]]) =
      [str "h1", str "h2"] :: [[str "a,b", str "c\"d"]] :=
  claim_C7_csv_round_trip.1 [str "h1", str "h2"] [[str "a,b", str "c\"d"]]
    (by decide) (by decide)

theorem then_eq_lt (o p : Ordering) : o.then p = .lt ↔ (o = .lt ∨ (o = .eq ∧ p = .lt)) := by
  cases o <;> simp [Ordering.then]

theorem then_eq_eq (o p : Ordering) : o.then p = .eq ↔ (o = .eq ∧ p = .eq) := by
  cases o <;> simp [Ordering.then]

theorem then_ne_gt (o p : Ordering) : o.then p ≠ .gt ↔ (o = .lt ∨ (o = .eq ∧ p ≠ .gt)) := by
  cases o <;> simp [Ordering.then]

theorem then_swap (o p : Ordering) : (o.then p).swap = o.swap.then p.swap := by
  cases o <;> simp [Ordering.then, Ordering.swap]

theorem cmpChars_eq_iff (a b : Str) : cmpChars a b = .eq ↔ a = b := by
  induction a generalizing b with
  | nil => cases b <;> simp [cmpChars]
  | cons c cs ih =>
      cases b with
      | nil => simp [cmpChars]
      | cons d ds =>
          rw [show cmpChars (c :: cs) (d :: ds) = (compare c.toNat d.toNat).then (cmpChars cs ds)
            from rfl]
          rw [then_eq_eq, Nat.compare_eq_eq, ih]
          constructor
          · rintro ⟨hv, he⟩
            exact List.cons_eq_cons.mpr ⟨Char.eq_of_val_eq (UInt32.ext hv), he⟩
          · intro he
            obtain ⟨h1, h2⟩ := List.cons_eq_cons.mp he
            exact ⟨by rw [h1], h2⟩

theorem cmpChars_swap (a b : Str) : (cmpChars a b).swap = cmpChars b a := by
  induction a generalizing b with
  | nil => cases b <;> simp [cmpChars, Ordering.swap]
  | cons c cs ih =>
      cases b with
      | nil => simp [cmpChars, Ordering.swap]
      | cons d ds =>
          rw [show cmpChars (c :: cs) (d :: ds) = (compare c.toNat d.toNat).then (cmpChars cs ds)
            from rfl,
            show cmpChars (d :: ds) (c :: cs) = (compare d.toNat c.toNat).then (cmpChars ds cs)
            from rfl]
          rw [then_swap, ih, Nat.compare_swap]

theorem cmpChars_lt_trans (a b c : Str) (hab : cmpChars a b = .lt) (hbc : cmpChars b c = .lt) :
    cmpChars a c = .lt := by
  induction a generalizing b c with
  | nil =>
      cases b with
      | nil => exact absurd hab (by simp [cmpChars])
      | cons d ds =>
          cases c with
          | nil => exact absurd hbc (by simp [cmpChars])
          | cons e es => simp [cmpChars]
  | cons x xs ih =>
      cases b with
      | nil => exact absurd hab (by simp [cmpChars])
      | cons d ds =>
          cases c with
          | nil => exact absurd hbc (by simp [cmpChars])
          | cons e es =>
              rw [show cmpChars (x :: xs) (d :: ds) = (compare x.toNat d.toNat).then (cmpChars xs ds)
                from rfl, then_eq_lt] at hab
              rw [show cmpChars (d :: ds) (e :: es) = (compare d.toNat e.toNat).then (cmpChars ds es)
                from rfl, then_eq_lt] at hbc
              rw [show cmpChars (x :: xs) (e :: es) = (compare x.toNat e.toNat).then (cmpChars xs es)
                from rfl, then_eq_lt]
              rcases hab with h1 | ⟨h1, h1'⟩ <;> rcases hbc with h2 | ⟨h2, h2'⟩
              · rw [Nat.compare_eq_lt] at h1 h2
                exact Or.inl (Nat.compare_eq_lt.mpr (h1.trans h2))
              · rw [Nat.compare_eq_lt] at h1
                rw [Nat.compare_eq_eq] at h2
                exact Or.inl (Nat.compare_eq_lt.mpr (h2 ▸ h1))
              · rw [Nat.compare_eq_eq] at h1
                rw [Nat.compare_eq_lt] at h2
                exact Or.inl (Nat.compare_eq_lt.mpr (h1 ▸ h2))
              · rw [Nat.compare_eq_eq] at h1 h2
                exact Or.inr ⟨Nat.compare_eq_eq.mpr (h1.trans h2), ih ds es h1' h2'⟩

theorem cmpChars_not_gt (a b : Str) (h : cmpChars a b ≠ .gt) :
    cmpChars a b = .lt ∨ a = b := by
  rcases ho : cmpChars a b with _ | _ | _
  · exact Or.inl rfl
  · exact Or.inr ((cmpChars_eq_iff a b).mp ho)
  · exact absurd ho h

theorem cmpChars_le_trans (a b c : Str) (hab : cmpChars a b ≠ .gt) (hbc : cmpChars b c ≠ .gt) :
    cmpChars a c ≠ .gt := by
  rcases cmpChars_not_gt a b hab with h1 | h1
  · rcases cmpChars_not_gt b c hbc with h2 | h2
    · rw [cmpChars_lt_trans a b c h1 h2]
      decide
    · rw [← h2, h1]
      decide
  · subst h1
    exact hbc

theorem cmpChars_antisymm (a b : Str) (hab : cmpChars a b ≠ .gt) (hba : cmpChars b a ≠ .gt) :
    a = b := by
  rcases cmpChars_not_gt a b hab with h1 | h1
  · exfalso
    apply hba
    rw [← cmpChars_swap, h1]
    rfl
  · exact h1

theorem natCompare_not_gt (a b : ℕ) (h : compare a b ≠ .gt) : a ≤ b := by
  rcases ho : compare a b with _ | _ | _
  · exact le_of_lt (Nat.compare_eq_lt.mp ho)
  · exact le_of_eq (Nat.compare_eq_eq.mp ho)
  · exact absurd ho h

theorem cmpProjectRow_le_trans (a b c : Task × Bool) (hab : projectRowLe a b)
    (hbc : projectRowLe b c) : projectRowLe a c := by
  unfold projectRowLe cmpProjectRow at *
  rw [then_ne_gt] at hab hbc ⊢
  rcases hab with h1 | ⟨h1, h1'⟩ <;> rcases hbc with h2 | ⟨h2, h2'⟩
  · exact Or.inl (cmpChars_lt_trans _ _ _ h1 h2)
  · rw [cmpChars_eq_iff] at h2
    exact Or.inl (h2 ▸ h1)
  · rw [cmpChars_eq_iff] at h1
    exact Or.inl (h1 ▸ h2)
  · rw [cmpChars_eq_iff] at h1 h2
    refine Or.inr ⟨(cmpChars_eq_iff _ _).mpr (h1.trans h2), ?_⟩
    rw [then_ne_gt] at h1' h2' ⊢
    rcases h1' with g1 | ⟨g1, g1'⟩ <;> rcases h2' with g2 | ⟨g2, g2'⟩
    · exact Or.inl (cmpChars_lt_trans _ _ _ g1 g2)
    · rw [cmpChars_eq_iff] at g2
      exact Or.inl (g2 ▸ g1)
    · rw [cmpChars_eq_iff] at g1
      exact Or.inl (g1 ▸ g2)
    · rw [cmpChars_eq_iff] at g1 g2
      refine Or.inr ⟨(cmpChars_eq_iff _ _).mpr (g1.trans g2), ?_⟩
      rw [then_ne_gt] at g1' g2' ⊢
      rcases g1' with f1 | ⟨f1, f1'⟩ <;> rcases g2' with f2 | ⟨f2, f2'⟩
      · rw [Nat.compare_eq_lt] at f1 f2
        exact Or.inl (Nat.compare_eq_lt.mpr (f1.trans f2))
      · rw [Nat.compare_eq_eq] at f2
        exact Or.inl (f2 ▸ f1)
      · rw [Nat.compare_eq_eq] at f1
        exact Or.inl (f1 ▸ f2)
      · rw [Nat.compare_eq_eq] at f1 f2
        exact Or.inr ⟨Nat.compare_eq_eq.mpr (f1.trans f2),
          cmpChars_le_trans _ _ _ f1' f2'⟩

theorem cmpProjectRow_swap (a b : Task × Bool) :
    (cmpProjectRow a b).swap = cmpProjectRow b a := by
  unfold cmpProjectRow
  rw [then_swap, then_swap, then_swap, cmpChars_swap, cmpChars_swap, cmpChars_swap,
    ← Nat.compare_swap, Ordering.swap_swap]

theorem projectRowLe_total (a b : Task × Bool) : projectRowLe a b ∨ projectRowLe b a := by
  unfold projectRowLe
  by_cases h : cmpProjectRow a b = .gt
  · refine Or.inr ?_
    rw [← cmpProjectRow_swap, h]
    decide
  · exact Or.inl h

instance : IsTrans (Task × Bool) projectRowLe := ⟨cmpProjectRow_le_trans⟩

instance : IsTotal (Task × Bool) projectRowLe := ⟨projectRowLe_total⟩

theorem spanGo_length (mc ac : List (Str × ℕ)) (prevW : Str) (l : List (Task × Bool))
    (seenM seenA : List Str) : (spanGo mc ac prevW seenM seenA l).length = l.length := by
  induction l generalizing seenM seenA with
  | nil => rfl
  | cons tw rest ih =>
      obtain ⟨t, warn⟩ := tw
      rw [show spanGo mc ac prevW seenM seenA ((t, warn) :: rest) = _ :: _ from rfl]
      simp only [List.length_cons]
      rw [ih]

theorem spanGo_map_module (mc ac : List (Str × ℕ)) (prevW : Str) (l : List (Task × Bool))
    (seenM seenA : List Str) :
    (spanGo mc ac prevW seenM seenA l).map PRow.module = l.map (fun tw => tw.1.module) := by
  induction l generalizing seenM seenA with
  | nil => rfl
  | cons tw rest ih =>
      obtain ⟨t, warn⟩ := tw
      rw [show spanGo mc ac prevW seenM seenA ((t, warn) :: rest) = _ :: _ from rfl]
      simp only [List.map_cons]
      rw [ih]
      rfl

theorem spanGo_map_ak (mc ac : List (Str × ℕ)) (prevW : Str) (l : List (Task × Bool))
    (seenM seenA : List Str) :
    (spanGo mc ac prevW seenM seenA l).map (fun r => assigneeKeyOf r.module r.assignee) =
      l.map (fun tw => assigneeKeyOf tw.1.module tw.1.assignee) := by
  induction l generalizing seenM seenA with
  | nil => rfl
  | cons tw rest ih =>
      obtain ⟨t, warn⟩ := tw
      rw [show spanGo mc ac prevW seenM seenA ((t, warn) :: rest) = _ :: _ from rfl]
      simp only [List.map_cons]
      rw [ih]
      rfl

theorem alGet_countFold {α : Type} (key : α → Str) (l : List α) (k : Str) :
    alGet (countFold key l) k =
      if l.countP (fun x => key x = k) = 0 then none
      else some (l.countP (fun x => key x = k)) := by
  induction l using List.reverseRecOn with
  | nil => simp [countFold, alGet]
  | append_singleton l x ih =>
      unfold countFold at *
      rw [List.foldl_append, List.foldl_cons, List.foldl_nil]
      rw [List.countP_append]
      by_cases hk : key x = k
      · rw [hk, alGet_alSet_self, ih]
        have hcx : List.countP (fun y => decide (key y = k)) [x] = 1 := by
          simp [List.countP_cons, hk]
        rw [hcx]
        by_cases h0 : List.countP (fun y => decide (key y = k)) l = 0
        · rw [if_pos h0, h0]
          simp
        · rw [if_neg h0]
          rw [if_neg (by omega)]
          simp
      · rw [alGet_alSet_ne _ _ _ _ (fun he => hk he.symm), ih]
        have hcx : List.countP (fun y => decide (key y = k)) [x] = 0 := by
          simp [List.countP_cons, hk]
        rw [hcx]
        simp

theorem mkPRow_showModule (mc ac : List (Str × ℕ)) (prevW : Str) (tw : Task × Bool)
    (b1 b2 : Bool) : (mkPRow mc ac prevW tw b1 b2).showModule = b1 := rfl

theorem mkPRow_showAssignee (mc ac : List (Str × ℕ)) (prevW : Str) (tw : Task × Bool)
    (b1 b2 : Bool) : (mkPRow mc ac prevW tw b1 b2).showAssignee = b2 := rfl

theorem spanGo_sumM (mc ac : List (Str × ℕ)) (prevW : Str) :
    ∀ (l : List (Task × Bool)) (seenM seenA : List Str) (m : Str),
    (((spanGo mc ac prevW seenM seenA l).filter
        (fun x => x.showModule ∧ x.module = m)).map PRow.moduleRowSpan).sum =
      if m ∈ seenM then 0
      else if m ∈ l.map (fun tw => tw.1.module) then (alGet mc m).getD 1 else 0 := by
  intro l
  induction l with
  | nil =>
      intro seenM seenA m
      by_cases h : m ∈ seenM <;> simp [spanGo, h]
  | cons tw rest ih =>
      intro seenM seenA m
      obtain ⟨t, warn⟩ := tw
      rw [show spanGo mc ac prevW seenM seenA ((t, warn) :: rest) = _ :: _ from rfl]
      rw [List.filter_cons]
      by_cases hm : t.module = m
      · by_cases hsm : m ∈ seenM
        · have htm : t.module ∈ seenM := by rw [hm]; exact hsm
          have hd : ¬ (decide (t.module ∉ seenM) = true) := by
            rw [decide_eq_true_eq]
            intro hx
            exact hx htm
          rw [if_neg (by
            rw [decide_eq_true_eq]
            rintro ⟨h1, -⟩
            exact hd h1)]
          rw [show (if decide (t.module ∉ seenM) = true then t.module :: seenM else seenM)
            = seenM from if_neg hd]
          rw [ih seenM _ m, if_pos hsm, if_pos hsm]
        · have htm : t.module ∉ seenM := by rw [hm]; exact hsm
          have hd : decide (t.module ∉ seenM) = true := decide_eq_true htm
          rw [if_pos (by
            rw [decide_eq_true_eq]
            exact ⟨hd, hm⟩)]
          rw [List.map_cons, List.sum_cons]
          rw [show (if decide (t.module ∉ seenM) = true then t.module :: seenM else seenM)
            = t.module :: seenM from if_pos hd]
          rw [ih (t.module :: seenM) _ m,
            if_pos (show m ∈ t.module :: seenM from List.mem_cons.mpr (Or.inl hm.symm))]
          rw [if_neg hsm, if_pos (by
            rw [show ((t, warn) :: rest).map (fun tw => tw.1.module)
              = t.module :: rest.map (fun tw => tw.1.module) from rfl]
            exact List.mem_cons.mpr (Or.inl hm.symm))]
          show (alGet mc t.module).getD 1 + 0 = (alGet mc m).getD 1
          rw [hm]
          omega
      · rw [if_neg (by
          rw [decide_eq_true_eq]
          rintro ⟨-, h2⟩
          exact hm h2)]
        have hrec : ∀ seenM2 : List Str, (m ∈ seenM2 ↔ m ∈ seenM) →
            (((spanGo mc ac prevW seenM2
                (if decide (assigneeKeyOf t.module t.assignee ∉ seenA) = true then
                  assigneeKeyOf t.module t.assignee :: seenA else seenA) rest).filter
                (fun x => x.showModule ∧ x.module = m)).map PRow.moduleRowSpan).sum =
              if m ∈ seenM then 0
              else if m ∈ ((t, warn) :: rest).map (fun tw => tw.1.module) then
                (alGet mc m).getD 1 else 0 := by
          intro seenM2 hiff
          rw [ih seenM2 _ m]
          by_cases hsm : m ∈ seenM
          · rw [if_pos (hiff.mpr hsm), if_pos hsm]
          · rw [if_neg (fun hx => hsm (hiff.mp hx)), if_neg hsm]
            rw [show ((t, warn) :: rest).map (fun tw => tw.1.module)
              = t.module :: rest.map (fun tw => tw.1.module) from rfl]
            by_cases hr : m ∈ rest.map (fun tw => tw.1.module)
            · rw [if_pos hr, if_pos (List.mem_cons_of_mem _ hr)]
            · rw [if_neg hr, if_neg (by
                rw [List.mem_cons]
                rintro (he | hx)
                · exact hm he.symm
                · exact hr hx)]
        by_cases hd : decide (t.module ∉ seenM) = true
        · rw [show (if decide (t.module ∉ seenM) = true then t.module :: seenM else seenM)
            = t.module :: seenM from if_pos hd]
          refine hrec (t.module :: seenM) ?_
          rw [List.mem_cons]
          constructor
          · rintro (he | hx)
            · exact absurd he.symm hm
            · exact hx
          · exact Or.inr
        · rw [show (if decide (t.module ∉ seenM) = true then t.module :: seenM else seenM)
            = seenM from if_neg hd]
          exact hrec seenM Iff.rfl

theorem spanGo_sumA (mc ac : List (Str × ℕ)) (prevW : Str) :
    ∀ (l : List (Task × Bool)) (seenM seenA : List Str) (m : Str),
    (((spanGo mc ac prevW seenM seenA l).filter
        (fun x => x.showAssignee ∧ assigneeKeyOf x.module x.assignee = m)).map
        PRow.assigneeRowSpan).sum =
      if m ∈ seenA then 0
      else if m ∈ l.map (fun tw => assigneeKeyOf tw.1.module tw.1.assignee) then
        (alGet ac m).getD 1 else 0 := by
  intro l
  induction l with
  | nil =>
      intro seenM seenA m
      by_cases h : m ∈ seenA <;> simp [spanGo, h]
  | cons tw rest ih =>
      intro seenM seenA m
      obtain ⟨t, warn⟩ := tw
      rw [show spanGo mc ac prevW seenM seenA ((t, warn) :: rest) = _ :: _ from rfl]
      rw [List.filter_cons]
      by_cases hm : assigneeKeyOf t.module t.assignee = m
      · by_cases hsm : m ∈ seenA
        · have htm : assigneeKeyOf t.module t.assignee ∈ seenA := by rw [hm]; exact hsm
          have hd : ¬ (decide (assigneeKeyOf t.module t.assignee ∉ seenA) = true) := by
            rw [decide_eq_true_eq]
            intro hx
            exact hx htm
          rw [if_neg (by
            rw [decide_eq_true_eq]
            rintro ⟨h1, -⟩
            exact hd h1)]
          rw [show (if decide (assigneeKeyOf t.module t.assignee ∉ seenA) = true then
            assigneeKeyOf t.module t.assignee :: seenA else seenA) = seenA from if_neg hd]
          rw [ih _ seenA m, if_pos hsm, if_pos hsm]
        · have htm : assigneeKeyOf t.module t.assignee ∉ seenA := by rw [hm]; exact hsm
          have hd : decide (assigneeKeyOf t.module t.assignee ∉ seenA) = true :=
            decide_eq_true htm
          rw [if_pos (by
            rw [decide_eq_true_eq]
            exact ⟨hd, hm⟩)]
          rw [List.map_cons, List.sum_cons]
          rw [show (if decide (assigneeKeyOf t.module t.assignee ∉ seenA) = true then
            assigneeKeyOf t.module t.assignee :: seenA else seenA)
            = assigneeKeyOf t.module t.assignee :: seenA from if_pos hd]
          rw [ih _ (assigneeKeyOf t.module t.assignee :: seenA) m,
            if_pos (show m ∈ assigneeKeyOf t.module t.assignee :: seenA from
              List.mem_cons.mpr (Or.inl hm.symm))]
          rw [if_neg hsm, if_pos (by
            rw [show ((t, warn) :: rest).map (fun tw => assigneeKeyOf tw.1.module tw.1.assignee)
              = assigneeKeyOf t.module t.assignee ::
                rest.map (fun tw => assigneeKeyOf tw.1.module tw.1.assignee) from rfl]
            exact List.mem_cons.mpr (Or.inl hm.symm))]
          show (alGet ac (assigneeKeyOf t.module t.assignee)).getD 1 + 0 = (alGet ac m).getD 1
          rw [hm]
          omega
      · rw [if_neg (by
          rw [decide_eq_true_eq]
          rintro ⟨-, h2⟩
          exact hm h2)]
        have hrec : ∀ seenA2 : List Str, (m ∈ seenA2 ↔ m ∈ seenA) →
            (((spanGo mc ac prevW
                (if decide (t.module ∉ seenM) = true then t.module :: seenM else seenM)
                seenA2 rest).filter
                (fun x => x.showAssignee ∧ assigneeKeyOf x.module x.assignee = m)).map
                PRow.assigneeRowSpan).sum =
              if m ∈ seenA then 0
              else if m ∈ ((t, warn) :: rest).map
                  (fun tw => assigneeKeyOf tw.1.module tw.1.assignee) then
                (alGet ac m).getD 1 else 0 := by
          intro seenA2 hiff
          rw [ih _ seenA2 m]
          by_cases hsm : m ∈ seenA
          · rw [if_pos (hiff.mpr hsm), if_pos hsm]
          · rw [if_neg (fun hx => hsm (hiff.mp hx)), if_neg hsm]
            rw [show ((t, warn) :: rest).map (fun tw => assigneeKeyOf tw.1.module tw.1.assignee)
              = assigneeKeyOf t.module t.assignee ::
                rest.map (fun tw => assigneeKeyOf tw.1.module tw.1.assignee) from rfl]
            by_cases hr : m ∈ rest.map (fun tw => assigneeKeyOf tw.1.module tw.1.assignee)
            · rw [if_pos hr, if_pos (List.mem_cons_of_mem _ hr)]
            · rw [if_neg hr, if_neg (by
                rw [List.mem_cons]
                rintro (he | hx)
                · exact hm he.symm
                · exact hr hx)]
        by_cases hd : decide (assigneeKeyOf t.module t.assignee ∉ seenA) = true
        · rw [show (if decide (assigneeKeyOf t.module t.assignee ∉ seenA) = true then
            assigneeKeyOf t.module t.assignee :: seenA else seenA)
            = assigneeKeyOf t.module t.assignee :: seenA from if_pos hd]
          refine hrec (assigneeKeyOf t.module t.assignee :: seenA) ?_
          rw [List.mem_cons]
          constructor
          · rintro (he | hx)
            · exact absurd he.symm hm
            · exact hx
          · exact Or.inr
        · rw [show (if decide (assigneeKeyOf t.module t.assignee ∉ seenA) = true then
            assigneeKeyOf t.module t.assignee :: seenA else seenA) = seenA from if_neg hd]
          exact hrec seenA Iff.rfl

theorem spanGo_getq (mc ac : List (Str × ℕ)) (prevW : Str) :
    ∀ (l : List (Task × Bool)) (sm sa : List Str) (i : ℕ),
    (spanGo mc ac prevW sm sa l).get? i =
      (l.get? i).map (fun tw => mkPRow mc ac prevW tw
        (decide (tw.1.module ∉ sm ∧
          tw.1.module ∉ (l.take i).map (fun x => x.1.module)))
        (decide (assigneeKeyOf tw.1.module tw.1.assignee ∉ sa ∧
          assigneeKeyOf tw.1.module tw.1.assignee ∉
            (l.take i).map (fun x => assigneeKeyOf x.1.module x.1.assignee)))) := by
  intro l
  induction l with
  | nil => intro sm sa i; simp [spanGo]
  | cons tw0 rest ih =>
      intro sm sa i
      obtain ⟨t, warn⟩ := tw0
      rw [show spanGo mc ac prevW sm sa ((t, warn) :: rest) = _ :: _ from rfl]
      cases i with
      | zero =>
          simp only [List.get?_cons_zero, List.take_zero, List.map_nil, List.not_mem_nil,
            not_false_iff, and_true, Option.map_some]
          rfl
      | succ i =>
          rw [List.get?_cons_succ, List.get?_cons_succ, ih _ _ i]
          cases hges : rest.get? i with
          | none => rfl
          | some tw =>
              simp only [Option.map_some', Option.some.injEq]
              have htake : ((t, warn) :: rest).take (i + 1) = (t, warn) :: rest.take i :=
                rfl
              rw [htake]
              have hb1 : decide (tw.1.module ∉
                    (if decide (t.module ∉ sm) = true then t.module :: sm else sm) ∧
                  tw.1.module ∉ (rest.take i).map (fun x => x.1.module)) =
                decide (tw.1.module ∉ sm ∧
                  tw.1.module ∉ ((t, warn) :: rest.take i).map (fun x => x.1.module)) := by
                rw [decide_eq_decide]
                rw [show ((t, warn) :: rest.take i).map (fun x => x.1.module) =
                  t.module :: (rest.take i).map (fun x => x.1.module) from rfl]
                by_cases hd : decide (t.module ∉ sm) = true
                · rw [if_pos hd]
                  simp only [List.mem_cons]
                  push_neg
                  constructor
                  · rintro ⟨⟨h1, h2⟩, h3⟩
                    exact ⟨h2, h1, h3⟩
                  · rintro ⟨h2, h1, h3⟩
                    exact ⟨⟨h1, h2⟩, h3⟩
                · rw [if_neg hd]
                  rw [decide_eq_true_eq] at hd
                  push_neg at hd
                  simp only [List.mem_cons]
                  push_neg
                  constructor
                  · rintro ⟨h1, h3⟩
                    exact ⟨h1, fun he => h1 (he ▸ hd), h3⟩
                  · rintro ⟨h1, -, h3⟩
                    exact ⟨h1, h3⟩
              have hb2 : decide (assigneeKeyOf tw.1.module tw.1.assignee ∉
                    (if decide (assigneeKeyOf t.module t.assignee ∉ sa) = true then
                      assigneeKeyOf t.module t.assignee :: sa else sa) ∧
                  assigneeKeyOf tw.1.module tw.1.assignee ∉
                    (rest.take i).map (fun x => assigneeKeyOf x.1.module x.1.assignee)) =
                decide (assigneeKeyOf tw.1.module tw.1.assignee ∉ sa ∧
                  assigneeKeyOf tw.1.module tw.1.assignee ∉
                    ((t, warn) :: rest.take i).map
                      (fun x => assigneeKeyOf x.1.module x.1.assignee)) := by
                rw [decide_eq_decide]
                rw [show ((t, warn) :: rest.take i).map
                    (fun x => assigneeKeyOf x.1.module x.1.assignee) =
                  assigneeKeyOf t.module t.assignee ::
                    (rest.take i).map (fun x => assigneeKeyOf x.1.module x.1.assignee) from rfl]
                by_cases hd : decide (assigneeKeyOf t.module t.assignee ∉ sa) = true
                · rw [if_pos hd]
                  simp only [List.mem_cons]
                  push_neg
                  constructor
                  · rintro ⟨⟨h1, h2⟩, h3⟩
                    exact ⟨h2, h1, h3⟩
                  · rintro ⟨h2, h1, h3⟩
                    exact ⟨⟨h1, h2⟩, h3⟩
                · rw [if_neg hd]
                  rw [decide_eq_true_eq] at hd
                  push_neg at hd
                  simp only [List.mem_cons]
                  push_neg
                  constructor
                  · rintro ⟨h1, h3⟩
                    exact ⟨h1, fun he => h1 (he ▸ hd), h3⟩
                  · rintro ⟨h1, -, h3⟩
                    exact ⟨h1, h3⟩
              rw [hb1, hb2]

theorem projectRowLe_module (a b : Task × Bool) (h : projectRowLe a b) :
    cmpChars a.1.module b.1.module ≠ .gt := by
  unfold projectRowLe cmpProjectRow at h
  rw [then_ne_gt] at h
  rcases h with h | ⟨h, -⟩ <;> rw [h] <;> decide

theorem projectRows_sorted_modules (tasks : List Task) (wF mF aF : Str) :
    ((projectRows tasks wF mF aF).map PRow.module).Pairwise
      (fun a b => cmpChars a b ≠ .gt) := by
  unfold projectRows
  rw [spanGo_map_module]
  have hs : (sortedRows tasks wF mF aF).Pairwise projectRowLe :=
    List.sorted_insertionSort projectRowLe _
  exact List.Pairwise.map _ (fun a b h => projectRowLe_module a b h) hs

theorem projectRows_countP_module (tasks : List Task) (wF mF aF : Str) (M : Str) :
    (projectRows tasks wF mF aF).countP (fun x => x.module = M) =
      (sortedRows tasks wF mF aF).countP (fun tw => tw.1.module = M) := by
  have h1 : (projectRows tasks wF mF aF).countP (fun x => x.module = M) =
      ((projectRows tasks wF mF aF).map PRow.module).countP (fun s => s = M) :=
    (List.countP_map (fun s => decide (s = M)) PRow.module _).symm
  rw [h1]
  unfold projectRows
  rw [spanGo_map_module]
  exact List.countP_map (fun s => decide (s = M)) _ _

theorem projectRows_countP_ak (tasks : List Task) (wF mF aF : Str) (M : Str) :
    (projectRows tasks wF mF aF).countP
        (fun x => assigneeKeyOf x.module x.assignee = M) =
      (sortedRows tasks wF mF aF).countP
        (fun tw => assigneeKeyOf tw.1.module tw.1.assignee = M) := by
  have h1 : (projectRows tasks wF mF aF).countP
        (fun x => assigneeKeyOf x.module x.assignee = M) =
      ((projectRows tasks wF mF aF).map
        (fun x => assigneeKeyOf x.module x.assignee)).countP (fun s => s = M) :=
    (List.countP_map (fun s => decide (s = M)) _ _).symm
  rw [h1]
  unfold projectRows
  rw [spanGo_map_ak]
  exact List.countP_map (fun s => decide (s = M)) _ _

theorem span_count_of_mem {α : Type} (key : α → Str) (l : List α) (M : Str)
    (h : ∃ x ∈ l, key x = M) :
    (alGet (countFold key l) M).getD 1 = l.countP (fun x => key x = M) := by
  rw [alGet_countFold]
  have hpos : 0 < l.countP (fun x => key x = M) := by
    rw [List.countP_pos_iff]
    obtain ⟨x, hx, he⟩ := h
    exact ⟨x, hx, by simp [he]⟩
  rw [if_neg (by omega)]
  rfl

/-- Two tasks whose (module, assignee) pairs differ but whose concatenated
grouping keys module ++ "||" ++ assignee coincide. -/
def c9Tasks : List Task :=
  [mkTask "A" "x" "y||z" "n1" [] .open_, mkTask "B" "x||y" "z" "n2" [] .open_]

/-- The first output row of the grouped listing over c9Tasks. -/
def c9Row0 : PRow :=
  ⟨str "x", str "y||z", str "A", str "A", [], str "Task", str "n1", str "-",
    .open_, 1, [], false, [], true, true, 1, 2⟩

/-- C9 counterexample: with an assignee containing the separator "||", the
two rows have distinct (module, assignee) pairs, yet the second is not marked
as first of its pair and both carry assignee span 2, while each pair counts
exactly one row; so the assignee-level marking and spans are not per
(module, assignee) pair. -/
theorem claim_C9_counterexample_concat_collision :
    ((projectRows c9Tasks (str "all") (str "all") (str "all")).map
        (fun r => (r.module, r.assignee, r.showAssignee, r.assigneeRowSpan)) =
      [(str "x", str "y||z", true, 2), (str "x||y", str "z", false, 2)])
    ∧ (projectRows c9Tasks (str "all") (str "all") (str "all")).countP
        (fun r => r.module = str "x" ∧ r.assignee = str "y||z") = 1
    ∧ (projectRows c9Tasks (str "all") (str "all") (str "all")).countP
        (fun r => r.module = str "x||y" ∧ r.assignee = str "z") = 1 := by
  decide

/-- C9 amended: in the grouped listing output, equal modules are consecutive
(the output is sorted by module first); a row carries the module group label
exactly when it is the first occurrence of its module, with a span equal to
the number of output rows sharing that module, so label spans sum per module
to that count; the assignee-level grouping behaves the same way but is keyed
by the concatenated string module ++ "||" ++ assignee rather than by the
(module, assignee) pair, which coincides with the pair exactly when the
concatenation is injective on the output. -/
theorem claim_C9_group_spans :
    ∀ (tasks : List Task) (wF mF aF : Str),
      (∀ i j k : ℕ, i ≤ j → j ≤ k →
        ∀ mi mj mk : Str,
          ((projectRows tasks wF mF aF).map PRow.module).get? i = some mi →
          ((projectRows tasks wF mF aF).map PRow.module).get? j = some mj →
          ((projectRows tasks wF mF aF).map PRow.module).get? k = some mk →
          mk = mi → mj = mi)
    ∧ (∀ (i : ℕ) (r : PRow), (projectRows tasks wF mF aF).get? i = some r →
        ((r.showModule = true ↔
            r.module ∉ ((projectRows tasks wF mF aF).map PRow.module).take i)
         ∧ (r.showAssignee = true ↔
            assigneeKeyOf r.module r.assignee ∉
              ((projectRows tasks wF mF aF).map
                (fun x => assigneeKeyOf x.module x.assignee)).take i)))
    ∧ (∀ r ∈ projectRows tasks wF mF aF,
        r.moduleRowSpan =
          (projectRows tasks wF mF aF).countP (fun x => x.module = r.module) ∧
        r.assigneeRowSpan =
          (projectRows tasks wF mF aF).countP
            (fun x => assigneeKeyOf x.module x.assignee = assigneeKeyOf r.module r.assignee))
    ∧ (∀ r ∈ projectRows tasks wF mF aF,
        (((projectRows tasks wF mF aF).filter
            (fun x => x.showModule ∧ x.module = r.module)).map PRow.moduleRowSpan).sum =
          (projectRows tasks wF mF aF).countP (fun x => x.module = r.module) ∧
        (((projectRows tasks wF mF aF).filter
            (fun x => x.showAssignee ∧
              assigneeKeyOf x.module x.assignee = assigneeKeyOf r.module r.assignee)).map
            PRow.assigneeRowSpan).sum =
          (projectRows tasks wF mF aF).countP
            (fun x => assigneeKeyOf x.module x.assignee =
              assigneeKeyOf r.module r.assignee)) := by
  intro tasks wF mF aF
  refine ⟨?_, ?_, ?_, ?_⟩
  · intro i j k hij hjk mi mj mk hi hj hk hki
    have hp := projectRows_sorted_modules tasks wF mF aF
    rw [List.pairwise_iff_get] at hp
    obtain ⟨hilen, hig⟩ := List.get?_eq_some.mp hi
    obtain ⟨hjlen, hjg⟩ := List.get?_eq_some.mp hj
    obtain ⟨hklen, hkg⟩ := List.get?_eq_some.mp hk
    rcases Nat.eq_or_lt_of_le hij with heq | hlt
    · subst heq
      rw [← hjg, ← hig]
    · rcases Nat.eq_or_lt_of_le hjk with heq2 | hlt2
      · subst heq2
        rw [← hki, ← hjg, ← hkg]
      · have h1 := hp ⟨i, hilen⟩ ⟨j, hjlen⟩ hlt
        have h2 := hp ⟨j, hjlen⟩ ⟨k, hklen⟩ hlt2
        rw [hig, hjg] at h1
        rw [hjg, hkg] at h2
        rw [hki] at h2
        exact (cmpChars_antisymm mi mj h1 h2).symm
  · intro i r hr
    unfold projectRows at hr ⊢
    rw [spanGo_getq] at hr
    cases hs : (sortedRows tasks wF mF aF).get? i with
    | none =>
        rw [hs] at hr
        cases hr
    | some tw =>
        rw [hs, Option.map_some'] at hr
        have hre := Option.some.inj hr
        subst hre
        rw [spanGo_map_module, spanGo_map_ak, ← List.map_take, ← List.map_take]
        constructor
        · show decide (tw.1.module ∉ ([] : List Str) ∧ _) = true ↔ _
          rw [decide_eq_true_eq]
          simp only [List.not_mem_nil, not_false_iff, true_and]
          exact Iff.rfl
        · show decide (assigneeKeyOf tw.1.module tw.1.assignee ∉ ([] : List Str) ∧ _)
            = true ↔ _
          rw [decide_eq_true_eq]
          simp only [List.not_mem_nil, not_false_iff, true_and]
          exact Iff.rfl
  · intro r hr
    rw [projectRows_countP_module, projectRows_countP_ak]
    unfold projectRows at hr
    obtain ⟨tw, htw, -, -, hmod, hassign, hspanM, hspanA⟩ := spanGo_mem _ _ _ _ _ _ r hr
    constructor
    · rw [hspanM, hmod]
      exact span_count_of_mem _ _ _ ⟨tw, htw, rfl⟩
    · rw [hspanA, hmod, hassign]
      exact span_count_of_mem _ _ _ ⟨tw, htw, rfl⟩
  · intro r hr
    rw [projectRows_countP_module, projectRows_countP_ak]
    unfold projectRows at hr ⊢
    obtain ⟨tw, htw, -, -, hmod, hassign, -, -⟩ := spanGo_mem _ _ _ _ _ _ r hr
    constructor
    · rw [spanGo_sumM]
      rw [if_neg (List.not_mem_nil r.module)]
      rw [if_pos (by
        rw [hmod]
        exact List.mem_map.mpr ⟨tw, htw, rfl⟩)]
      rw [hmod]
      exact span_count_of_mem _ _ _ ⟨tw, htw, rfl⟩
    · rw [spanGo_sumA]
      rw [if_neg (List.not_mem_nil (assigneeKeyOf r.module r.assignee))]
      rw [if_pos (by
        rw [hmod, hassign]
        exact List.mem_map.mpr ⟨tw, htw, rfl⟩)]
      rw [hmod, hassign]
      exact span_count_of_mem _ _ _ ⟨tw, htw, rfl⟩

theorem claim_C9_group_spans_witness :
    (projectRows c9Tasks (str "all") (str "all") (str "all")).get? 0 = some c9Row0 ∧
    (c9Row0.showModule = true ↔
      c9Row0.module ∉
        ((projectRows c9Tasks (str "all") (str "all") (str "all")).map
          PRow.module).take 0) :=
  ⟨by decide,
    ((claim_C9_group_spans c9Tasks (str "all") (str "all") (str "all")).2.1 0 c9Row0
      (by decide)).1⟩

end TaskReport
